import Mathlib

/-!
Verification development for the resource-proxy-node repository.

The JavaScript sources are shallowly embedded: strings are `List Char`,
JavaScript objects holding request parameters are insertion-ordered
association lists (`PropObj`), numbers that the code manipulates as
floating point (timestamps, the derived per-second rate) are `ℚ`, and
asynchronous promise-based code is modelled by explicit outcome values.
Each definition is a transcription of the corresponding function in the
repository; its doc comment names the source location.
-/

set_option maxHeartbeats 1000000

/-- Characters treated as whitespace by JavaScript trim (ASCII fragment). -/
def jsIsWs (c : Char) : Bool :=
  c = ' ' ∨ c = '\t' ∨ c = '\n' ∨ c = '\r'

/-- Model of JavaScript String.prototype.trim: drop whitespace from both ends. -/
def jsTrim (s : List Char) : List Char :=
  ((s.dropWhile jsIsWs).reverse.dropWhile jsIsWs).reverse

/-- Model of JavaScript String.prototype.toLowerCase (ASCII fragment). -/
def jsToLower (s : List Char) : List Char :=
  s.map Char.toLower

/-- Model of ProjectUtilities.startsWith (src/unnamed/part_000 lines 27-31):
case-insensitive test that needle occurs at index 0 of subject. -/
def jsStartsWith (subject needle : List Char) : Bool :=
  (jsToLower needle).isPrefixOf (jsToLower subject)

/-- A JavaScript object used as a key/value map of strings, modelled as an
insertion-ordered association list. The model assumes keys are not
integer-like (JavaScript enumerates integer-like keys first); all theorems
below stay inside that regime. -/
abbrev PropObj : Type := List (List Char × List Char)

/-- Property lookup on a `PropObj` (JavaScript object[key] read). -/
def getProp : PropObj → List Char → Option (List Char)
  | [], _ => none
  | (k', v') :: rest, k => if k' = k then some v' else getProp rest k

/-- Property write on a `PropObj` (JavaScript object[key] = value): an
existing key keeps its position, a new key is appended in insertion order. -/
def setProp : PropObj → List Char → List Char → PropObj
  | [], k, v => [(k, v)]
  | (k', v') :: rest, k, v =>
      if k' = k then (k', v) :: rest else (k', v') :: setProp rest k v

/-- Keys of a `PropObj` are pairwise distinct. -/
def nodupKeys (m : PropObj) : Prop := (m.map Prod.fst).Nodup

/-- Model of ProjectUtilities.isPropertySet (src/unnamed/part_000 lines
52-58) for string-valued configuration fields: the property is set when it
is present and trims to a non-empty string. An absent property is modelled
by the empty string. -/
def isPropertySetStr (v : List Char) : Bool :=
  (jsTrim v).length > 0

/-- Model of ProjectUtilities.addIfPropertyNotSet (src/unnamed/part_000
lines 83-88): write the value only when the key is absent or its current
value trims to the empty string. -/
def addIfPropertyNotSet (m : PropObj) (key value : List Char) : PropObj :=
  match getProp m key with
  | none => m ++ [(key, value)]
  | some v => if jsTrim v = [] then setProp m key value else m

/-- Unreserved characters of JavaScript encodeURIComponent: ASCII letters,
digits, and - _ . ! ~ * ( ) plus the apostrophe (char code 39). -/
def isUnreservedURI (c : Char) : Bool :=
  (c.isAlpha ∧ c.toNat < 128) ∨ c.isDigit ∨
    c = '-' ∨ c = '_' ∨ c = '.' ∨ c = '!' ∨ c = '~' ∨ c = '*' ∨
    c = Char.ofNat 39 ∨ c = '(' ∨ c = ')'

/-- Uppercase hexadecimal digit for a value below 16. -/
def hexDigitU (n : Nat) : Char :=
  if n < 10 then Char.ofNat (48 + n) else Char.ofNat (55 + n)

/-- UTF-8 byte sequence of a Unicode code point. -/
def utf8Bytes (n : Nat) : List Nat :=
  if n < 0x80 then [n]
  else if n < 0x800 then [0xC0 + n / 64, 0x80 + n % 64]
  else if n < 0x10000 then [0xE0 + n / 4096, 0x80 + n / 64 % 64, 0x80 + n % 64]
  else [0xF0 + n / 262144, 0x80 + n / 4096 % 64, 0x80 + n / 64 % 64, 0x80 + n % 64]

/-- Percent-encoding of a single character as encodeURIComponent does:
unreserved characters pass through, anything else becomes %XX byte escapes
of its UTF-8 encoding. -/
def encodeChar (c : Char) : List Char :=
  if isUnreservedURI c then [c]
  else (utf8Bytes c.toNat).flatMap (fun b => '%' :: [hexDigitU (b / 16), hexDigitU (b % 16)])

/-- Model of JavaScript encodeURIComponent. -/
def encodeURIComponentM (s : List Char) : List Char :=
  s.flatMap encodeChar

/-- Value of one hexadecimal digit character, case-insensitive. -/
def hexVal (c : Char) : Option Nat :=
  if '0' ≤ c ∧ c ≤ '9' then some (c.toNat - 48)
  else if 'A' ≤ c ∧ c ≤ 'F' then some (c.toNat - 55)
  else if 'a' ≤ c ∧ c ≤ 'f' then some (c.toNat - 87)
  else none

/-- First pass of decodeURIComponent: every %XX escape becomes a byte
(left injection) and every literal character passes through (right
injection); a malformed escape is a URIError, modelled as `none`. -/
def pctTokens : List Char → Option (List (Nat ⊕ Char))
  | [] => some []
  | c :: rest =>
      if c = '%' then
        match rest with
        | h1 :: h2 :: t => do
            let a ← hexVal h1
            let b ← hexVal h2
            let ts ← pctTokens t
            pure (Sum.inl (a * 16 + b) :: ts)
        | _ => none
      else do
        let ts ← pctTokens rest
        pure (Sum.inr c :: ts)

/-- Decode a UTF-8 byte list into characters; invalid sequences are a
URIError, modelled as `none`. -/
def utf8Decode : List Nat → Option (List Char)
  | [] => some []
  | b :: rest =>
      if b < 0x80 then (utf8Decode rest).map (fun cs => Char.ofNat b :: cs)
      else if b < 0xC2 then none
      else if b < 0xE0 then
        match rest with
        | b2 :: t =>
            if 0x80 ≤ b2 ∧ b2 < 0xC0 then
              (utf8Decode t).map (fun cs => Char.ofNat ((b - 0xC0) * 64 + (b2 - 0x80)) :: cs)
            else none
        | _ => none
      else if b < 0xF0 then
        match rest with
        | b2 :: b3 :: t =>
            if (0x80 ≤ b2 ∧ b2 < 0xC0) ∧ (0x80 ≤ b3 ∧ b3 < 0xC0) then
              let cp := (b - 0xE0) * 4096 + (b2 - 0x80) * 64 + (b3 - 0x80)
              if 0x800 ≤ cp ∧ (cp < 0xD800 ∨ 0xDFFF < cp) then
                (utf8Decode t).map (fun cs => Char.ofNat cp :: cs)
              else none
            else none
        | _ => none
      else if b < 0xF5 then
        match rest with
        | b2 :: b3 :: b4 :: t =>
            if (0x80 ≤ b2 ∧ b2 < 0xC0) ∧ (0x80 ≤ b3 ∧ b3 < 0xC0) ∧ (0x80 ≤ b4 ∧ b4 < 0xC0) then
              let cp := (b - 0xF0) * 262144 + (b2 - 0x80) * 4096 + (b3 - 0x80) * 64 + (b4 - 0x80)
              if 0x10000 ≤ cp ∧ cp < 0x110000 then
                (utf8Decode t).map (fun cs => Char.ofNat cp :: cs)
              else none
            else none
        | _ => none
      else none

/-- Second pass of decodeURIComponent: maximal runs of escape bytes
(collected in reverse in the accumulator) are decoded as UTF-8 when a
literal character or the end of input is reached. -/
def assembleTokens : List Nat → List (Nat ⊕ Char) → Option (List Char)
  | pending, [] => utf8Decode pending.reverse
  | pending, Sum.inl b :: rest => assembleTokens (b :: pending) rest
  | pending, Sum.inr c :: rest => do
      let cs ← utf8Decode pending.reverse
      let tail ← assembleTokens [] rest
      pure (cs ++ c :: tail)

/-- Model of JavaScript decodeURIComponent. -/
def decodeURIComponentM (s : List Char) : Option (List Char) := do
  assembleTokens [] (← pctTokens s)

/-- The per-component decoder used by queryStringToObject
(src/unnamed/part_000 lines 101-103): replace + with a space, then
decodeURIComponent. -/
def jsQsDecode (s : List Char) : Option (List Char) :=
  decodeURIComponentM (s.map (fun c => if c = '+' then ' ' else c))

/-- One step predicate for the query-string scanner: a character the regex
class [^&=] accepts. -/
def qsKeyChar (c : Char) : Bool := c ≠ '&' ∧ c ≠ '='

/-- Fuelled scanner reproducing the global-exec loop of
queryStringToObject (src/unnamed/part_000 lines 98-112) over the regex
([^&=]+)=?([^&]*): skip characters that cannot start a key, else read a
maximal key, an optional =, and a maximal value. -/
def qsScanF : Nat → List Char → List (List Char × List Char)
  | 0, _ => []
  | _ + 1, [] => []
  | fuel + 1, c :: rest =>
      if c = '&' ∨ c = '=' then qsScanF fuel rest
      else
        let key := (c :: rest).takeWhile qsKeyChar
        let after1 := (c :: rest).dropWhile qsKeyChar
        let after1 :=
          match after1 with
          | '=' :: t => t
          | other => other
        let value := after1.takeWhile (fun x => x ≠ '&')
        let rest' := after1.dropWhile (fun x => x ≠ '&')
        (key, value) :: qsScanF fuel rest'

/-- Scanner entry point; fuel is the input length, which suffices because
every step consumes at least one character. -/
def qsScan (s : List Char) : List (List Char × List Char) :=
  qsScanF s.length s

/-- Model of ProjectUtilities.queryStringToObject (src/unnamed/part_000
lines 98-112): strip a leading ?, scan key=value pairs, decode each
component, and build the object with later duplicates overwriting. -/
def queryStringToObject (urlParameterString : List Char) : Option PropObj :=
  let s :=
    match urlParameterString with
    | c :: rest => if c = '?' then rest else urlParameterString
    | [] => []
  (qsScan s).foldlM
    (fun m kv => do pure (setProp m (← jsQsDecode kv.1) (← jsQsDecode kv.2))) []

/-- Model of ProjectUtilities.objectToQueryString (src/unnamed/part_000
lines 122-145) restricted to string values (the only values the proxy
stores in parameter objects): URL-encode key and value, join by &, with
the separator added only when the accumulated string is non-empty. -/
def objectToQueryString (m : PropObj) : List Char :=
  m.foldl
    (fun acc kv =>
      acc ++ (if acc.length = 0 then [] else ['&']) ++
        encodeURIComponentM kv.1 ++ '=' :: encodeURIComponentM kv.2)
    []

example : qsScan "a".toList = [("a".toList, [])] := by decide
example : qsScan "token=&f=1".toList = [("token".toList, []), ("f".toList, "1".toList)] := by decide
example : queryStringToObject "a=1+1".toList = some [("a".toList, "1 1".toList)] := by decide
example : objectToQueryString [("a".toList, "1 1".toList)] = "a=1%201".toList := by decide

/-- Linear search for the first index at or after i satisfying P, with
explicit fuel; models the leftmost-match search of a JavaScript regex. -/
def searchFrom (P : Nat → Bool) : Nat → Nat → Option Nat
  | _, 0 => none
  | i, fuel + 1 => if P i then some i else searchFrom P (i + 1) fuel

/-- Model of JavaScript String.prototype.indexOf for a single character. -/
def jsIndexOf (c : Char) : List Char → Option Nat
  | [] => none
  | x :: rest => if x = c then some 0 else (jsIndexOf c rest).map (· + 1)

/-- First index at which pat occurs as a substring of s (JavaScript
String.prototype.search for a regex that is a literal string). -/
def firstSubstrIdx (s pat : List Char) : Option Nat :=
  searchFrom (fun i => pat.isPrefixOf (s.drop i)) 0 s.length

/-- A match of the regex (\?|&|\/|)token= can start at index i either with
one of the separators ? & / followed by token=, or - because the last
alternative is empty - with token= directly. -/
def qsTokenMatchAt (source tokEq : List Char) (i : Nat) : Bool :=
  let s := source.drop i
  tokEq.isPrefixOf s ||
    ((decide (s.head? = some '?') || decide (s.head? = some '&') ||
      decide (s.head? = some '/')) && tokEq.isPrefixOf s.tail)

/-- Leftmost-match search for the regex (\?|&|\/|)token= built by
findTokenInString; the final empty alternative makes the separator
optional. -/
def searchQsToken (source tokEq : List Char) : Option Nat :=
  searchFrom (qsTokenMatchAt source tokEq) 0 source.length

/-- Model of ProjectUtilities.findTokenInString (src/unnamed/part_000
lines 156-192): search the query-string form first (regex
(\?|&|\/|)token=, value cut at the next & when that & is not immediately
after the =), and otherwise the JSON form "token": followed by the next
quoted string. -/
def findTokenInString (source tok : List Char) : List Char :=
  if jsTrim source ≠ [] ∧ jsTrim tok ≠ [] then
    let tokEq := tok ++ ['=']
    match searchQsToken source tokEq with
    | some found =>
        let value := source.drop found
        match jsIndexOf '=' value with
        | some j =>
            let value := value.drop (j + 1)
            match jsIndexOf '&' value with
            | some k => if k > 0 then value.take k else value
            | none => value
        | none => value
    | none =>
        let searchToken := '"' :: tok ++ ['"', ':']
        match firstSubstrIdx source searchToken with
        | some found =>
            let value := source.drop (found + searchToken.length)
            match jsIndexOf '"' value with
            | some q =>
                let rest := value.drop (q + 1)
                match jsIndexOf '"' rest with
                | some q2 => rest.take q2
                | none => []
            | none => []
        | none => []
  else []

example : findTokenInString "\x7b\"token\":\"X\"\x7d".toList "token".toList = "X".toList := by decide
example : findTokenInString "a?token=XYZ&f=json".toList "token".toList = "XYZ".toList := by decide
example : findTokenInString "atoken=Y&token=X&b".toList "token".toList = "Y".toList := by decide

/-- Model of the JavaScript split on '.' used by testDomainsMatch: the
empty string splits to one empty segment, and every '.' starts a new
segment. -/
def jsSplitDot : List Char → List (List Char)
  | [] => [[]]
  | c :: rest =>
      match jsSplitDot rest with
      | [] => [[c]]
      | h :: t => if c = '.' then [] :: h :: t else (c :: h) :: t

/-- Segment loop of testDomainsMatch: each pattern segment must be * or
equal (exact string comparison) to the corresponding request segment. -/
def domainSegmentsMatch : List (List Char) → List (List Char) → Bool
  | [], [] => true
  | d :: ds, r :: rs => (d = ['*'] ∨ d = r) ∧ domainSegmentsMatch ds rs
  | _, _ => false

/-- Model of UrlFlexParser.testDomainsMatch (src/bin/UrlFlexParser.js
lines 286-305): split both hosts on '.', require equal segment counts,
and compare segment-wise with * wildcards in the pattern. -/
def testDomainsMatch (wildCardDomain referrer : List Char) : Bool :=
  let domainParts := jsSplitDot wildCardDomain
  let referrerParts := jsSplitDot referrer
  if domainParts.length = referrerParts.length then
    domainSegmentsMatch domainParts referrerParts
  else false

example : testDomainsMatch "*.example.com".toList "www.example.com".toList = true := by decide
example : testDomainsMatch "*.example.com".toList "deep.www.example.com".toList = false := by decide

/-- Model of UrlFlexParser.testProtocolsMatch (src/bin/UrlFlexParser.js
lines 314-316). -/
def testProtocolsMatch (sourceProtocol targetProtocol : List Char) : Bool :=
  sourceProtocol = ['*'] ∨ sourceProtocol = targetProtocol

/-- The normalized URL-parts tuple produced by
UrlFlexParser.parseAndFixURLParts. The parser itself wraps Node's url
module, so functions that need it take a parse function as a parameter. -/
structure UrlParts where
  protocol : List Char := ['*']
  hostname : List Char := ['*']
  path : List Char := ['*']
  port : List Char := ['*']
  query : List Char := []
deriving Repr, DecidableEq, Inhabited

/-- A configured serverUrls entry after
Configuration.postParseConfigurationFile has normalized it. -/
structure ServerUrl where
  url : List Char := []
  protocol : List Char := ['*']
  hostname : List Char := []
  path : List Char := ['*']
  query : List Char := []
  matchAll : Bool := true
  rateLimit : Nat := 0
  rateLimitPeriod : Nat := 0
  useRateMeter : Bool := false
  rate : ℚ := 0
  ratePeriodSeconds : ℚ := 0
  accessToken : List Char := []
  token : List Char := []
  mayRequireToken : Bool := false
deriving Repr, DecidableEq, Inhabited

/-- Model of UrlFlexParser.parsedUrlPartsMatch (src/bin/UrlFlexParser.js
lines 325-356) as the resource matcher calls it (src/unnamed/part_002 line
114): the parsed request tuple is the first argument (urlPartsSource) and
the configured serverUrl the second (urlPartsTarget). Note the request
hostname therefore sits in the wildcard position of testDomainsMatch, and
urlPartsSource.matchAll reads a property the parsed request tuple never
carries, so that JavaScript condition is always falsy and the prefix
branch is always the one taken. -/
def parsedUrlPartsMatch (urlParts : UrlParts) (serverUrl : ServerUrl) : Bool :=
  if testDomainsMatch urlParts.hostname serverUrl.hostname then
    if urlParts.protocol = ['*'] ∨ serverUrl.protocol = ['*'] ∨
        urlParts.protocol = serverUrl.protocol then
      serverUrl.path = ['*'] ∨ jsStartsWith serverUrl.path urlParts.path
    else false
  else false

/-- Model of UrlFlexParser.combineParameters (src/bin/UrlFlexParser.js
lines 579-604): start from the configured query of the matched serverUrl,
and for a GET overlay the request's query-string parameters (a POST reads
request.query, which the node request object never carries, so it
contributes nothing). `none` models a decodeURIComponent URIError. -/
def combineParameters (method urlPartsQuery serverQuery : List Char) : Option PropObj := do
  let configuredParameters ←
    if serverQuery.length > 0 then queryStringToObject serverQuery else pure []
  let requestParameters : Option (List Char) :=
    if method = "GET".toList then
      if urlPartsQuery.length > 0 then some urlPartsQuery else none
    else none
  match requestParameters with
  | none => pure configuredParameters
  | some q => do
      let requestObj ← queryStringToObject q
      pure (requestObj.foldl (fun m kv => setProp m kv.1 kv.2) configuredParameters)

/-- The token-injection step of processValidatedRequest
(src/unnamed/part_002 lines 509-514): prefer the configured accessToken,
else the configured token, added only when the parameter object has no
non-blank token property. -/
def injectConfiguredToken (parameters : PropObj) (su : ServerUrl) : PropObj :=
  if isPropertySetStr su.accessToken then
    addIfPropertyNotSet parameters "token".toList su.accessToken
  else if isPropertySetStr su.token then
    addIfPropertyNotSet parameters "token".toList su.token
  else parameters

/-- A configured allowed-referrer pattern as cached by
Configuration.postParseConfigurationFile (src/bin/Configuration.js lines
270-296). -/
structure ReferrerPattern where
  protocol : List Char := ['*']
  hostname : List Char := ['*']
  path : List Char := ['*']
  referrer : List Char := ['*']
deriving Repr, DecidableEq, Inhabited

/-- Model of the allowAnyReferrer configuration flag: it starts false
(src/bin/Configuration.js line 37) and the allowed-referrer loop (lines
278-281) sets it when some configured entry is exactly the string *. -/
def configAllowAnyReferrer (entries : List (List Char)) : Bool :=
  entries.any (fun e => e = ['*'])

/-- The pattern-list loop of UrlFlexParser.validatedReferrerFromReferrer
(src/bin/UrlFlexParser.js lines 380-399). -/
def referrerLoop (matchAllReferrer : Bool) (parts : UrlParts) :
    List ReferrerPattern → Option (List Char)
  | [] => none
  | p :: rest =>
      if testProtocolsMatch p.protocol parts.protocol then
        if p.hostname = ['*'] ∨ testDomainsMatch p.hostname parts.hostname then
          if p.path = ['*'] ∨ p.path = parts.path then some p.referrer
          else if ¬matchAllReferrer ∧ jsStartsWith parts.path p.path then some p.referrer
          else referrerLoop matchAllReferrer parts rest
        else referrerLoop matchAllReferrer parts rest
      else referrerLoop matchAllReferrer parts rest

/-- Model of UrlFlexParser.validatedReferrerFromReferrer
(src/bin/UrlFlexParser.js lines 366-407). In accept-any mode it returns *
immediately; otherwise a non-empty referrer is lowercased, trimmed,
parsed (the parse function abstracts parseAndFixURLParts) and matched
against each configured pattern. `none` models the null no-match result. -/
def validatedReferrerFromReferrer (allowAnyReferrer matchAllReferrer : Bool)
    (parse : List Char → UrlParts) (referrer : List Char)
    (allowedReferrers : List ReferrerPattern) : Option (List Char) :=
  if allowAnyReferrer then some ['*']
  else if referrer.length > 0 then
    referrerLoop matchAllReferrer (parse (jsTrim (jsToLower referrer))) allowedReferrers
  else none

/-- The rate fields computed by Configuration.postParseConfigurationFile
(src/bin/Configuration.js lines 418-426): when both limits are positive,
rate = rateLimit / rateLimitPeriod / 60 requests per second and
ratePeriodSeconds = 1 / rate; otherwise the meter is off. Returns
(useRateMeter, rate, ratePeriodSeconds). -/
def postParseRateFields (rateLimit rateLimitPeriod : Nat) : Bool × ℚ × ℚ :=
  if rateLimit > 0 ∧ rateLimitPeriod > 0 then
    let rate : ℚ := (rateLimit : ℚ) / (rateLimitPeriod : ℚ) / 60
    (true, rate, 1 / rate)
  else (false, 0, 0)

/-- One row of the RateMeter ips table (src/bin/RateMeter.js line 84):
count is the number of admissions in the current window, time the window
start (a fractional-second timestamp), total and rejected the lifetime
counters. -/
structure IpsRow where
  id : Nat := 0
  url : List Char := []
  referrer : List Char := []
  count : Nat := 0
  rate : ℚ := 0
  time : ℚ := 0
  total : Nat := 0
  rejected : Nat := 0
deriving Repr, DecidableEq, Inhabited

/-- The value a JavaScript promise is resolved with in RateMeter: either a
boolean or - in the missing-row branch as written - an Error object,
which is truthy. -/
inductive JsResolvedValue where
  | boolVal (b : Bool)
  | errorObject
deriving Repr, DecidableEq

/-- JavaScript truthiness of a resolved value: any object is truthy. -/
def jsTruthy : JsResolvedValue → Bool
  | .boolVal b => b
  | .errorObject => true

/-- Outcome of one isUnderMeterCap call as observed by its callers:
the promise resolves, rejects, or never settles because the callback
threw before settling it. -/
inductive MeterOutcome where
  | resolved (v : JsResolvedValue)
  | rejectedWithError
  | neverSettles
deriving Repr, DecidableEq

/-- Result of one admission step: the promise outcome plus the row as the
two UPDATE statements leave it. -/
structure MeterStep where
  outcome : MeterOutcome
  row : Option IpsRow
deriving Repr, DecidableEq

/-- Model of RateMeter.isUnderMeterCap (src/bin/RateMeter.js lines
235-305) for one request at time `now` against the stored row for the
(referrer, url) key. With the row present: reset-and-admit when the count
is 0 or the window has expired, admit-and-increment when count <
serverURL.rate, else reject. When no row exists, the code builds an Error
whose message concatenates the variable `url` - which is not defined in
any enclosing scope (line 293) - so evaluating it throws a ReferenceError
inside the database callback and the promise never settles. With the
database connection closed the promise is rejected. -/
def isUnderMeterCap (dbOpen : Bool) (queryResult : Option IpsRow)
    (serverURL : ServerUrl) (timeOfRequest : ℚ) : MeterStep :=
  if dbOpen then
    match queryResult with
    | some q =>
        if q.count = 0 ∨ q.time + serverURL.ratePeriodSeconds ≤ timeOfRequest then
          { outcome := .resolved (.boolVal true),
            row := some { q with count := 1, time := timeOfRequest, total := q.total + 1 } }
        else if (q.count : ℚ) < serverURL.rate then
          { outcome := .resolved (.boolVal true),
            row := some { q with count := q.count + 1, total := q.total + 1 } }
        else
          { outcome := .resolved (.boolVal false),
            row := some { q with rejected := q.rejected + 1 } }
    | none => { outcome := .neverSettles, row := none }
  else { outcome := .rejectedWithError, row := none }

/-- What the proxy sends back to the client for one dispatched request. -/
inductive ClientReaction where
  | forwarded
  | sendError (code : Nat)
deriving Repr, DecidableEq

/-- Model of the two promise handlers installed by
checkRateMeterThenProcessValidatedRequest (src/unnamed/part_002 lines
766-778): a truthy resolution forwards the request, a falsy resolution
sends 429, a rejection sends 420, and a promise that never settles runs
neither handler, so no response is ever produced. -/
def checkRateMeterContinuation : MeterOutcome → Option ClientReaction
  | .resolved v => if jsTruthy v then some .forwarded else some (.sendError 429)
  | .rejectedWithError => some (.sendError 420)
  | .neverSettles => none

/-- The version string of src/unnamed/part_002 (line 26). -/
def proxyVersion : List Char := "0.1.5".toList

/-- A JSON response of the proxy, with its body as an ordered object. -/
structure JsonResponse where
  status : Nat
  body : PropObj
deriving Repr, DecidableEq

/-- Model of sendPingResponse (src/unnamed/part_002 lines 582-593). -/
def sendPingResponse (referrer : List Char) : JsonResponse :=
  { status := 200,
    body := [("Proxy Version".toList, proxyVersion),
             ("Configuration File".toList, "OK".toList),
             ("Log File".toList, "OK".toList),
             ("referrer".toList, referrer)] }

/-- The request-line fields produced by UrlFlexParser.parseURLRequest. -/
structure RequestParts where
  listenPath : List Char := []
  proxyPath : List Char := []
  query : List Char := []
  protocol : List Char := ['*']
deriving Repr, DecidableEq, Inhabited

/-- The configuration fields consulted by processRequest. -/
structure ProxyConfig where
  localPingURL : List Char := "/ping".toList
  localEchoURL : List Char := "/echo".toList
  localStatusURL : List Char := "/status".toList
  mustMatch : Bool := true
  listenURI : List (List Char) := ["/proxy".toList]
  allowAnyReferrer : Bool := false
  matchAllReferrer : Bool := true
  allowedReferrers : List ReferrerPattern := []
deriving Repr, Inhabited

/-- Model of isValidURLRequest (src/unnamed/part_002 lines 133-147):
case-insensitive membership of the requested uri in listenURI, and false
whenever mustMatch is off. -/
def isValidURLRequest (cfg : ProxyConfig) (uri : List Char) : Bool :=
  if cfg.mustMatch then
    cfg.listenURI.any (fun candidate => jsToLower uri = jsToLower candidate)
  else false

/-- The action processRequest decides on for one inbound request. -/
inductive DispatchStep where
  | pingResponse (referrerKey : List Char)
  | echoResponse (referrerKey : List Char)
  | statusResponse (referrerKey : List Char)
  | meterThenForward (referrerKey : List Char) (su : ServerUrl)
  | forwardDirect (referrerKey : List Char) (su : ServerUrl)
  | forwardSynthetic (referrerKey : List Char)
  | errorResponse (code : Nat)
  | serveStaticFile
deriving Repr, DecidableEq

/-- First step of processRequest (src/unnamed/part_002 lines 798-805):
the referer header is lowercased and trimmed (or replaced by * when
absent or empty) and then validated. Only afterwards does processRequest
check the ping, echo and status paths, the resource matcher (abstracted
by the `matcher` parameter over getServerUrlInfo) and the rate-meter
guard. -/
def processRequestReferrer (cfg : ProxyConfig) (parse : List Char → UrlParts)
    (refererHeader : Option (List Char)) : Option (List Char) :=
  let referrer0 : List Char :=
    match refererHeader with
    | none => ['*']
    | some r => if r.length < 1 then ['*'] else jsTrim (jsToLower r)
  validatedReferrerFromReferrer cfg.allowAnyReferrer cfg.matchAllReferrer
    parse referrer0 cfg.allowedReferrers

/-- The dispatch decision of processRequest (src/unnamed/part_002 lines
791-851), continuing after referrer validation. -/
def processRequest (cfg : ProxyConfig) (parse : List Char → UrlParts)
    (matcher : RequestParts → Option ServerUrl)
    (refererHeader : Option (List Char)) (requestParts : RequestParts) : DispatchStep :=
  match processRequestReferrer cfg parse refererHeader with
  | none => .errorResponse 403
  | some referrer =>
      if requestParts.listenPath = cfg.localPingURL then .pingResponse referrer
      else if requestParts.proxyPath = cfg.localEchoURL then .echoResponse referrer
      else if requestParts.listenPath = cfg.localStatusURL then .statusResponse referrer
      else if isValidURLRequest cfg requestParts.listenPath then
        match matcher requestParts with
        | some serverURLInfo =>
            if serverURLInfo.useRateMeter then .meterThenForward referrer serverURLInfo
            else .forwardDirect referrer serverURLInfo
        | none =>
            if ¬cfg.mustMatch then .forwardSynthetic referrer
            else .errorResponse 404
      else .serveStaticFile

/-- Result of the checkForMissingToken callback of proxyResponseRewrite
(src/unnamed/part_002 lines 905-916) on the buffered response body. The
callback receives the decoded body, which is a string; `body.error` is
therefore undefined, and reading `.code` from undefined throws a
TypeError. Only the empty string is falsy and skips that read. -/
def checkForMissingTokenCallback (body : List Char) : Except (List Char) Bool :=
  if body = [] then .ok false
  else .error "TypeError: body.error is undefined".toList

/-- What the rewritten proxyResponse.end sends to the client. -/
inductive ResponseEndAction where
  | passThrough (body : List Char)
  | tokenFailureMessage
deriving Repr, DecidableEq

/-- Model of the proxyResponse.end override installed by
checkServerResponseForMissingToken (src/unnamed/part_002 lines 1002-1036)
for a response without gzip/deflate content-encoding: the callback result
decides between passing the buffered body through and writing the
could-not-generate-a-new-token message; a callback exception is caught
and leaves tokenIsMissing false, and no token regeneration, broker call
or replay exists on either branch. -/
def responseEndBehavior (bufferedBody : List Char) : ResponseEndAction :=
  let tokenIsMissing :=
    if bufferedBody.length > 0 then
      match checkForMissingTokenCallback bufferedBody with
      | .ok b => b
      | .error _ => false
    else false
  if ¬tokenIsMissing then .passThrough bufferedBody
  else .tokenFailureMessage

example :
    responseEndBehavior "\x7b\"error\":\x7b\"code\":498,\"message\":\"Invalid token.\"\x7d\x7d".toList =
      .passThrough "\x7b\"error\":\x7b\"code\":498,\"message\":\"Invalid token.\"\x7d\x7d".toList := by
  decide

/-- Modelled from the spec (claim C1): the admission step as the spec
states it, with windowSeconds = (rateLimitPeriod × 60) / rateLimit and a
per-window cap of rateLimit admissions. -/
def specMeterStepClaim (rateLimit rateLimitPeriod : Nat) (q : IpsRow) (now : ℚ) : MeterStep :=
  let windowSeconds : ℚ := ((rateLimitPeriod : ℚ) * 60) / (rateLimit : ℚ)
  if q.count = 0 ∨ q.time + windowSeconds ≤ now then
    { outcome := .resolved (.boolVal true),
      row := some { q with count := 1, time := now, total := q.total + 1 } }
  else if q.count < rateLimit then
    { outcome := .resolved (.boolVal true),
      row := some { q with count := q.count + 1, total := q.total + 1 } }
  else
    { outcome := .resolved (.boolVal false),
      row := some { q with rejected := q.rejected + 1 } }

/-- The admission step as the code actually performs it, phrased over the
configured rateLimit and rateLimitPeriod: the window is
(rateLimitPeriod × 60) / rateLimit seconds, but the in-window comparison
is windowCount < rateLimit / (rateLimitPeriod × 60) - the per-second
rate - not windowCount < rateLimit. -/
def specMeterStepAmended (rateLimit rateLimitPeriod : Nat) (q : IpsRow) (now : ℚ) : MeterStep :=
  let rate : ℚ := (rateLimit : ℚ) / ((rateLimitPeriod : ℚ) * 60)
  let windowSeconds : ℚ := ((rateLimitPeriod : ℚ) * 60) / (rateLimit : ℚ)
  if q.count = 0 ∨ q.time + windowSeconds ≤ now then
    { outcome := .resolved (.boolVal true),
      row := some { q with count := 1, time := now, total := q.total + 1 } }
  else if (q.count : ℚ) < rate then
    { outcome := .resolved (.boolVal true),
      row := some { q with count := q.count + 1, total := q.total + 1 } }
  else
    { outcome := .resolved (.boolVal false),
      row := some { q with rejected := q.rejected + 1 } }

/-- A serverUrl configured with rateLimit 3 per rateLimitPeriod 1 minute,
with the derived rate fields exactly as Configuration computes them. -/
def suRate3Per1 : ServerUrl :=
  { url := "http://example.com/arcgis/rest/services".toList,
    rateLimit := 3, rateLimitPeriod := 1,
    useRateMeter := (postParseRateFields 3 1).1,
    rate := (postParseRateFields 3 1).2.1,
    ratePeriodSeconds := (postParseRateFields 3 1).2.2 }

/-- A meter row one second into an active window with one admission. -/
def rowOneInWindow : IpsRow :=
  { id := 1, url := "http://example.com/arcgis/rest/services".toList,
    referrer := ['*'], count := 1, rate := (postParseRateFields 3 1).2.1,
    time := 100, total := 1, rejected := 0 }

/-- C1 counterexample: for rateLimit 3, rateLimitPeriod 1 and a row with
windowCount 1 inside an active window (window start 100, now 101), the
claim's step admits the request (1 < 3 = rateLimit), but
RateMeter.isUnderMeterCap compares 1 against serverURL.rate = 1/20 and
denies it, incrementing rejected. -/
theorem c1_counterexample_rate_not_rateLimit :
    specMeterStepClaim 3 1 rowOneInWindow 101 =
      { outcome := .resolved (.boolVal true),
        row := some { rowOneInWindow with count := 2, total := 2 } } ∧
    isUnderMeterCap true (some rowOneInWindow) suRate3Per1 101 =
      { outcome := .resolved (.boolVal false),
        row := some { rowOneInWindow with rejected := 1 } } := by
  constructor
  · show specMeterStepClaim 3 1 rowOneInWindow 101 = _
    norm_num [specMeterStepClaim, rowOneInWindow]
  · norm_num [isUnderMeterCap, suRate3Per1, rowOneInWindow, postParseRateFields]

/-- C1 amended: one admission step of RateMeter.isUnderMeterCap on a row,
for a serverUrl whose rate fields were derived by
Configuration.postParseConfigurationFile from rateLimit > 0 and
rateLimitPeriod > 0, resets and admits on an empty or expired window of
(rateLimitPeriod × 60) / rateLimit seconds, otherwise admits without
moving the window start only while windowCount < rateLimit /
(rateLimitPeriod × 60) (the per-second rate, not rateLimit), and
otherwise increments rejected and denies. -/
theorem c1_amended_step (rateLimit rateLimitPeriod : Nat) (su : ServerUrl)
    (q : IpsRow) (now : ℚ)
    (hrl : 0 < rateLimit) (hp : 0 < rateLimitPeriod)
    (hrate : su.rate = (postParseRateFields rateLimit rateLimitPeriod).2.1)
    (hper : su.ratePeriodSeconds = (postParseRateFields rateLimit rateLimitPeriod).2.2) :
    isUnderMeterCap true (some q) su now =
      specMeterStepAmended rateLimit rateLimitPeriod q now := by
  have hrlQ : ((rateLimit : ℚ)) ≠ 0 := Nat.cast_ne_zero.mpr hrl.ne'
  have h1 : (postParseRateFields rateLimit rateLimitPeriod).2.1 =
      (rateLimit : ℚ) / ((rateLimitPeriod : ℚ) * 60) := by
    simp [postParseRateFields, hrl, hp, div_div]
  have h2 : (postParseRateFields rateLimit rateLimitPeriod).2.2 =
      ((rateLimitPeriod : ℚ) * 60) / (rateLimit : ℚ) := by
    simp [postParseRateFields, hrl, hp, div_div, one_div_div]
  simp only [isUnderMeterCap, specMeterStepAmended, hrate, hper, h1, h2, if_true]

/-- Witness for c1_amended_step at rateLimit 3, rateLimitPeriod 1. -/
theorem c1_amended_step_witness :
    isUnderMeterCap true (some rowOneInWindow) suRate3Per1 101 =
      specMeterStepAmended 3 1 rowOneInWindow 101 :=
  c1_amended_step 3 1 suRate3Per1 rowOneInWindow 101 (by norm_num) (by norm_num)
    rfl rfl

/-- The upstream auth-failure envelope of spec scenario 6. -/
def errBody498 : List Char :=
  "\x7b\"error\":\x7b\"code\":498,\"message\":\"Invalid token.\",\"details\":[]\x7d\x7d".toList

/-- C2: the token-expiry retry is not implemented. For every buffered
response body the rewritten proxyResponse.end passes the original bytes
through: the detection callback evaluates body.error.code on the raw
body string, which throws a TypeError that the surrounding try/catch
swallows, leaving tokenIsMissing false; and even the tokenIsMissing
branch only writes a fixed failure message (the TODO at
src/unnamed/part_002 line 1032) - no cache invalidation, broker call or
replay exists. In particular the 498 error envelope is forwarded to the
client unchanged. -/
theorem c2_auth_retry_not_implemented :
    (∀ body, responseEndBehavior body = .passThrough body) ∧
    checkForMissingTokenCallback errBody498 =
      .error "TypeError: body.error is undefined".toList ∧
    responseEndBehavior errBody498 = .passThrough errBody498 := by
  refine ⟨fun body => ?_, rfl, by decide⟩
  cases body with
  | nil => rfl
  | cons c t => simp [responseEndBehavior, checkForMissingTokenCallback]

/-- C6: when the matched resource has a rate cap (useRateMeter), the
dispatcher routes the request through the rate meter, and the meter
continuation sends 429 when the limiter resolves false (over cap) and
420 when the limiter's promise rejects. -/
theorem c6_rate_cap_429_and_420 (cfg : ProxyConfig) (parse : List Char → UrlParts)
    (matcher : RequestParts → Option ServerUrl) (hdr : Option (List Char))
    (rp : RequestParts) (su : ServerUrl) (r : List Char)
    (href : processRequestReferrer cfg parse hdr = some r)
    (hping : rp.listenPath ≠ cfg.localPingURL)
    (hecho : rp.proxyPath ≠ cfg.localEchoURL)
    (hstatus : rp.listenPath ≠ cfg.localStatusURL)
    (hvalid : isValidURLRequest cfg rp.listenPath = true)
    (hmatch : matcher rp = some su)
    (hmeter : su.useRateMeter = true) :
    processRequest cfg parse matcher hdr rp = .meterThenForward r su ∧
    checkRateMeterContinuation (.resolved (.boolVal false)) = some (.sendError 429) ∧
    checkRateMeterContinuation .rejectedWithError = some (.sendError 420) := by
  refine ⟨?_, rfl, rfl⟩
  simp only [processRequest, href, if_neg hping, if_neg hecho, if_neg hstatus,
    hvalid, if_true, hmatch, hmeter]

/-- Witness for c6_rate_cap_429_and_420 on a concrete configuration. -/
theorem c6_rate_cap_witness :
    processRequest { allowAnyReferrer := true } (fun _ => default) (fun _ => some suRate3Per1)
        none { listenPath := "/proxy".toList } =
      .meterThenForward ['*'] suRate3Per1 ∧
    checkRateMeterContinuation (.resolved (.boolVal false)) = some (.sendError 429) ∧
    checkRateMeterContinuation .rejectedWithError = some (.sendError 420) :=
  c6_rate_cap_429_and_420 { allowAnyReferrer := true } (fun _ => default)
    (fun _ => some suRate3Per1) none { listenPath := "/proxy".toList } suRate3Per1 ['*']
    (by decide) (by decide) (by decide) (by decide) (by decide) rfl rfl

/-- C7: when the configured allowed-referrer list contains the entry *,
Configuration turns on accept-any-referrer mode, and the validator then
returns the canonical key * for every referrer (in particular every
non-empty one) without consulting the parsed referrer or the pattern
list. -/
theorem c7_accept_any_referrer (entries : List (List Char)) (matchAllRef : Bool)
    (parse : List Char → UrlParts) (referrer : List Char)
    (allowed : List ReferrerPattern)
    (hstar : ['*'] ∈ entries) (_hne : referrer ≠ []) :
    validatedReferrerFromReferrer (configAllowAnyReferrer entries) matchAllRef
      parse referrer allowed = some ['*'] := by
  have hany : configAllowAnyReferrer entries = true :=
    List.any_eq_true.mpr ⟨['*'], hstar, by simp⟩
  simp [validatedReferrerFromReferrer, hany]

/-- Witness for c7_accept_any_referrer. -/
theorem c7_accept_any_referrer_witness :
    validatedReferrerFromReferrer (configAllowAnyReferrer [['*']]) true
      (fun _ => default) "https://app.example.org".toList [] = some ['*'] :=
  c7_accept_any_referrer [['*']] true (fun _ => default)
    "https://app.example.org".toList [] (by decide) (by decide)

/-- C8 counterexample: with an empty allow-list (accept-any off) and a
disallowed Referer header, a request for the configured ping path is
answered with the 403 referrer error, not the ping document - referrer
validation runs before the ping check. -/
theorem c8_counterexample_ping_needs_referrer :
    processRequest {} (fun _ => default) (fun _ => none)
      (some "https://evil.example.net/".toList) { listenPath := "/ping".toList } =
      DispatchStep.errorResponse 403 := by
  decide

/-- C8 amended: the ping reply is a 200 JSON document with keys Proxy
Version (the server version), Configuration File, Log File and referrer;
but referrer validation precedes the ping check in processRequest, so the
ping document is produced exactly when the Referer validates, and a
rejected referrer receives the 403 error even on the ping path. -/
theorem c8_ping_document_after_referrer (cfg : ProxyConfig)
    (parse : List Char → UrlParts) (matcher : RequestParts → Option ServerUrl)
    (hdr : Option (List Char)) (rp : RequestParts)
    (hping : rp.listenPath = cfg.localPingURL) :
    processRequest cfg parse matcher hdr rp =
      (match processRequestReferrer cfg parse hdr with
       | some r => DispatchStep.pingResponse r
       | none => DispatchStep.errorResponse 403) ∧
    ∀ r, sendPingResponse r =
      { status := 200,
        body := [("Proxy Version".toList, "0.1.5".toList),
                 ("Configuration File".toList, "OK".toList),
                 ("Log File".toList, "OK".toList),
                 ("referrer".toList, r)] } := by
  refine ⟨?_, fun r => rfl⟩
  cases h : processRequestReferrer cfg parse hdr with
  | none => simp only [processRequest, h]
  | some r => simp only [processRequest, h, hping, if_true]

/-- Witness for c8_ping_document_after_referrer with accept-any-referrer
on: the ping document is produced. -/
theorem c8_ping_document_witness :
    processRequest { allowAnyReferrer := true } (fun _ => default) (fun _ => none)
        none { listenPath := "/ping".toList } =
      (match processRequestReferrer { allowAnyReferrer := true } (fun _ => default) none with
       | some r => DispatchStep.pingResponse r
       | none => DispatchStep.errorResponse 403) ∧
    ∀ r, sendPingResponse r =
      { status := 200,
        body := [("Proxy Version".toList, "0.1.5".toList),
                 ("Configuration File".toList, "OK".toList),
                 ("Log File".toList, "OK".toList),
                 ("referrer".toList, r)] } :=
  c8_ping_document_after_referrer { allowAnyReferrer := true } (fun _ => default)
    (fun _ => none) none { listenPath := "/ping".toList } rfl

/-- C10 counterexample: on the rate-metered serverUrl suRate3Per1 with no
row in the store, the promise outcome is neverSettles - not a resolution
with an Error value - and the dispatcher's continuation produces no
client reaction at all: the request is not forwarded. -/
theorem c10_counterexample_missing_row_throws :
    (isUnderMeterCap true none suRate3Per1 100).outcome = MeterOutcome.neverSettles ∧
    (isUnderMeterCap true none suRate3Per1 100).outcome ≠
      MeterOutcome.resolved JsResolvedValue.errorObject ∧
    checkRateMeterContinuation (isUnderMeterCap true none suRate3Per1 100).outcome ≠
      some ClientReaction.forwarded := by
  refine ⟨rfl, by decide, by decide⟩

/-- C10 amended: in the missing-row case isUnderMeterCap builds the Error
message from the undefined variable url (src/bin/RateMeter.js line 293),
so a ReferenceError is thrown before resolvePromise runs and the promise
never settles; neither dispatcher handler runs, the request is neither
forwarded nor answered, and in particular the client never receives the
420 limiter-failure response. -/
theorem c10_missing_row_never_settles (su : ServerUrl) (now : ℚ) :
    isUnderMeterCap true none su now =
      { outcome := MeterOutcome.neverSettles, row := none } ∧
    checkRateMeterContinuation (isUnderMeterCap true none su now).outcome = none := by
  exact ⟨rfl, rfl⟩

/-- The segment loop of testDomainsMatch succeeds exactly when the two
segment lists have equal length and every pattern segment is * or equal -
by exact string comparison - to the request segment at the same
position. -/
theorem domainSegmentsMatch_iff : ∀ (ds rs : List (List Char)),
    domainSegmentsMatch ds rs = true ↔
      (ds.length = rs.length ∧ ∀ i (h1 : i < ds.length) (h2 : i < rs.length),
        ds.get ⟨i, h1⟩ = ['*'] ∨ ds.get ⟨i, h1⟩ = rs.get ⟨i, h2⟩)
  | [], [] => by simp [domainSegmentsMatch]
  | [], r :: rs => by simp [domainSegmentsMatch]
  | d :: ds, [] => by simp [domainSegmentsMatch]
  | d :: ds, r :: rs => by
      simp only [domainSegmentsMatch, decide_eq_true_eq]
      constructor
      · rintro ⟨hd, hrest⟩
        obtain ⟨hlen, hidx⟩ := (domainSegmentsMatch_iff ds rs).mp hrest
        refine ⟨by simpa using hlen, ?_⟩
        intro i h1 h2
        cases i with
        | zero => simpa using hd
        | succ n =>
            simpa using hidx n (by simpa using h1) (by simpa using h2)
      · rintro ⟨hlen, hidx⟩
        refine ⟨by simpa using hidx 0 (by simp) (by simp), ?_⟩
        refine (domainSegmentsMatch_iff ds rs).mpr ⟨by simpa using hlen, ?_⟩
        intro n hn1 hn2
        simpa using hidx (n + 1) (by simpa using hn1) (by simpa using hn2)

/-- Modelled from the spec (claim C4): the host match as the claim states
it, with case-insensitive segment equality. -/
def specHostMatchCI (pattern host : List Char) : Bool :=
  let dp := jsSplitDot pattern
  let rp := jsSplitDot host
  dp.length = rp.length ∧
    (dp.zip rp).all (fun pr => pr.1 = ['*'] ∨ jsToLower pr.1 = jsToLower pr.2)

/-- C4 counterexample: the pattern *.Example.com and the host
www.example.com agree case-insensitively on every segment, so the claim's
host match accepts, but testDomainsMatch compares segments with the
JavaScript != operator, which is case-sensitive, and rejects. -/
theorem c4_counterexample_case_sensitive :
    specHostMatchCI "*.Example.com".toList "www.example.com".toList = true ∧
    testDomainsMatch "*.Example.com".toList "www.example.com".toList = false := by
  decide

/-- C4 amended: testDomainsMatch pattern host succeeds iff splitting both
on '.' gives equal segment counts and, at every position, the pattern
segment is * or the two segments are equal by exact (case-sensitive)
string comparison; in particular *.example.com matches www.example.com
and does not match deep.www.example.com. -/
theorem c4_amended_host_match :
    (∀ d r, testDomainsMatch d r = true ↔
      ((jsSplitDot d).length = (jsSplitDot r).length ∧
        ∀ i (h1 : i < (jsSplitDot d).length) (h2 : i < (jsSplitDot r).length),
          (jsSplitDot d).get ⟨i, h1⟩ = ['*'] ∨
            (jsSplitDot d).get ⟨i, h1⟩ = (jsSplitDot r).get ⟨i, h2⟩)) ∧
    testDomainsMatch "*.example.com".toList "www.example.com".toList = true ∧
    testDomainsMatch "*.example.com".toList "deep.www.example.com".toList = false := by
  refine ⟨fun d r => ?_, by decide, by decide⟩
  unfold testDomainsMatch
  by_cases hlen : (jsSplitDot d).length = (jsSplitDot r).length
  · simp only [hlen, if_true, domainSegmentsMatch_iff]
    try tauto
  · simp [hlen]

/-- Witness instantiating the amended host-match characterization. -/
theorem c4_amended_host_match_witness :
    testDomainsMatch "*.example.com".toList "www.example.com".toList = true :=
  c4_amended_host_match.2.1

theorem getProp_setProp_self (m : PropObj) (k v : List Char) :
    getProp (setProp m k v) k = some v := by
  induction m with
  | nil => simp [setProp, getProp]
  | cons kv rest ih =>
      by_cases h : kv.1 = k
      · simp [setProp, getProp, h]
      · simp [setProp, getProp, h, ih]

theorem getProp_setProp_ne (m : PropObj) (k v k' : List Char) (h : k' ≠ k) :
    getProp (setProp m k v) k' = getProp m k' := by
  have hne : ¬ k = k' := fun hh => h hh.symm
  induction m with
  | nil => simp [setProp, getProp, hne]
  | cons kv rest ih =>
      by_cases hk : kv.1 = k
      · subst hk
        have : kv.1 ≠ k' := fun hh => h hh.symm
        simp [setProp, getProp, this]
      · simp only [setProp]
        rw [if_neg hk]
        by_cases hk' : kv.1 = k'
        · simp [getProp, hk']
        · simp [getProp, hk', ih]

theorem getProp_append_of_ne (m : PropObj) (k v k' : List Char) (h : k' ≠ k) :
    getProp (m ++ [(k, v)]) k' = getProp m k' := by
  have hne : ¬ k = k' := fun hh => h hh.symm
  induction m with
  | nil => simp [getProp, hne]
  | cons kv rest ih =>
      by_cases hk : kv.1 = k'
      · simp [getProp, hk]
      · simp [getProp, hk, ih]

theorem getProp_append_self (m : PropObj) (k v : List Char)
    (h : getProp m k = none) : getProp (m ++ [(k, v)]) k = some v := by
  induction m with
  | nil => simp [getProp]
  | cons kv rest ih =>
      by_cases hk : kv.1 = k
      · simp [getProp, hk] at h
      · simp only [getProp, hk] at h
        simp [getProp, hk, ih h]

theorem keys_setProp (m : PropObj) (k v : List Char) :
    (setProp m k v).map Prod.fst =
      if k ∈ m.map Prod.fst then m.map Prod.fst else m.map Prod.fst ++ [k] := by
  induction m with
  | nil => simp [setProp]
  | cons kv rest ih =>
      by_cases hk : kv.1 = k
      · simp [setProp, hk]
      · have hne : ¬ k = kv.1 := fun hh => hk hh.symm
        by_cases hmem : k ∈ rest.map Prod.fst
        · simp [setProp, hk, ih, hmem, hne]
        · simp [setProp, hk, ih, hmem, hne]

theorem nodupKeys_setProp (m : PropObj) (k v : List Char) (h : nodupKeys m) :
    nodupKeys (setProp m k v) := by
  unfold nodupKeys at h ⊢
  rw [keys_setProp]
  by_cases hmem : k ∈ m.map Prod.fst
  · simpa [hmem] using h
  · rw [if_neg hmem]
    exact List.Nodup.append h (List.nodup_singleton k) (by simpa using hmem)

/-- The object built by queryStringToObject's fold has pairwise distinct
keys: a repeated key overwrites in place. -/
theorem nodupKeys_foldlM_setProp (ps : List (List Char × List Char)) :
    ∀ (acc m : PropObj), nodupKeys acc →
      ps.foldlM (fun m kv => do
        pure (setProp m (← jsQsDecode kv.1) (← jsQsDecode kv.2))) acc = some m →
      nodupKeys m := by
  induction ps with
  | nil =>
      intro acc m hacc h
      simp only [List.foldlM_nil, Option.pure_def, Option.some.injEq] at h
      exact h ▸ hacc
  | cons kv rest ih =>
      intro acc m hacc h
      simp only [List.foldlM_cons] at h
      cases h1 : jsQsDecode kv.1 with
      | none => simp [h1] at h
      | some x =>
          cases h2 : jsQsDecode kv.2 with
          | none => simp [h1, h2] at h
          | some y =>
              simp only [h1, h2, Option.pure_def, Option.bind_eq_bind,
                Option.some_bind] at h
              exact ih (setProp acc x y) m (nodupKeys_setProp acc x y hacc) h

theorem queryStringToObject_nodupKeys (q : List Char) (m : PropObj)
    (h : queryStringToObject q = some m) : nodupKeys m := by
  unfold queryStringToObject at h
  exact nodupKeys_foldlM_setProp _ [] m (by simp [nodupKeys]) h

theorem getProp_foldl_setProp_of_not_mem (ps : List (List Char × List Char)) :
    ∀ (acc : PropObj) (k : List Char), k ∉ ps.map Prod.fst →
      getProp (ps.foldl (fun m kv => setProp m kv.1 kv.2) acc) k = getProp acc k := by
  induction ps with
  | nil => intro acc k _; rfl
  | cons kv rest ih =>
      intro acc k hk
      simp only [List.map_cons, List.mem_cons] at hk
      push_neg at hk
      rw [List.foldl_cons, ih (setProp acc kv.1 kv.2) k hk.2,
        getProp_setProp_ne acc kv.1 kv.2 k hk.1]

/-- Overlay semantics of the request-parameter fold of combineParameters:
a key present in the (duplicate-free) request object takes the request's
value, every other key keeps the configured value. -/
theorem getProp_foldl_setProp (ps : List (List Char × List Char)) :
    ∀ (acc : PropObj) (k : List Char), nodupKeys ps →
      getProp (ps.foldl (fun m kv => setProp m kv.1 kv.2) acc) k =
        (match getProp ps k with
         | some v => some v
         | none => getProp acc k) := by
  induction ps with
  | nil => intro acc k _; rfl
  | cons kv rest ih =>
      intro acc k hnd
      have hnd' : nodupKeys rest := by
        unfold nodupKeys at hnd ⊢
        exact (List.nodup_cons.mp hnd).2
      have hk0 : kv.1 ∉ rest.map Prod.fst := by
        unfold nodupKeys at hnd
        exact (List.nodup_cons.mp hnd).1
      rw [List.foldl_cons]
      by_cases hk : kv.1 = k
      · subst hk
        rw [getProp_foldl_setProp_of_not_mem rest (setProp acc kv.1 kv.2) kv.1 hk0,
          getProp_setProp_self]
        simp [getProp]
      · rw [ih (setProp acc kv.1 kv.2) k hnd']
        have hne : ¬ kv.1 = k := hk
        cases hrest : getProp rest k with
        | some v => simp [getProp, hne, hrest]
        | none => simp [getProp, hne, hrest, getProp_setProp_ne acc kv.1 kv.2 k
            (fun hh => hk hh.symm)]

theorem getProp_addIfPropertyNotSet_self (m : PropObj) (key value : List Char) :
    getProp (addIfPropertyNotSet m key value) key =
      (match getProp m key with
       | none => some value
       | some v => if jsTrim v = [] then some value else some v) := by
  unfold addIfPropertyNotSet
  cases h : getProp m key with
  | none => simp [getProp_append_self m key value h]
  | some v =>
      by_cases ht : jsTrim v = []
      · simp [ht, getProp_setProp_self]
      · simp [ht, h]

theorem getProp_addIfPropertyNotSet_ne (m : PropObj) (key value k : List Char)
    (h : k ≠ key) :
    getProp (addIfPropertyNotSet m key value) k = getProp m k := by
  unfold addIfPropertyNotSet
  cases hg : getProp m key with
  | none => simp [getProp_append_of_ne m key value k h]
  | some v =>
      by_cases ht : jsTrim v = []
      · simp [ht, getProp_setProp_ne m key value k h]
      · simp [ht]

/-- A serverUrl carrying a static access token. -/
def suWithAccessToken : ServerUrl :=
  { url := "http://example.com/arcgis/rest/services".toList,
    accessToken := "SECRET".toList }

/-- C5 counterexample: a GET request whose query string is token=&f=1
produces a merged map that does contain the key token (with empty value),
yet the configured access token is still injected, because
addIfPropertyNotSet also overwrites a token property whose value trims to
the empty string. The claim's "if and only if the merged map lacks a
token key" is therefore false. -/
theorem c5_counterexample_empty_token_overwritten :
    combineParameters "GET".toList "token=&f=1".toList [] =
      some [("token".toList, []), ("f".toList, "1".toList)] ∧
    getProp [("token".toList, []), ("f".toList, "1".toList)] "token".toList = some [] ∧
    injectConfiguredToken [("token".toList, []), ("f".toList, "1".toList)]
        suWithAccessToken =
      [("token".toList, "SECRET".toList), ("f".toList, "1".toList)] := by
  refine ⟨by decide, by decide, by decide⟩

/-- C5 amended: for a GET request, the merged parameter map is the
Resource's configured query overlaid with the request's query-string
parameters (the request wins on shared keys), and when the Resource has a
static access token, that token is written to the token parameter if and
only if the merged map lacks a token key or its token value trims to the
empty string; all other keys are unchanged by the injection. -/
theorem c5_amended_merge_and_injection (serverQuery urlQuery : List Char)
    (su : ServerUrl) (cm rm merged : PropObj)
    (hcm : queryStringToObject serverQuery = some cm)
    (hrm : queryStringToObject urlQuery = some rm)
    (hs : serverQuery ≠ []) (hu : urlQuery ≠ [])
    (hmerge : combineParameters "GET".toList urlQuery serverQuery = some merged)
    (hAT : isPropertySetStr su.accessToken = true) :
    (∀ k, getProp merged k =
      (match getProp rm k with
       | some v => some v
       | none => getProp cm k)) ∧
    getProp (injectConfiguredToken merged su) "token".toList =
      (match getProp merged "token".toList with
       | none => some su.accessToken
       | some v => if jsTrim v = [] then some su.accessToken else some v) ∧
    (∀ k, k ≠ "token".toList →
      getProp (injectConfiguredToken merged su) k = getProp merged k) := by
  have hslen : serverQuery.length > 0 := List.length_pos.mpr hs
  have hulen : urlQuery.length > 0 := List.length_pos.mpr hu
  have hinj : injectConfiguredToken merged su =
      addIfPropertyNotSet merged "token".toList su.accessToken := by
    unfold injectConfiguredToken
    rw [if_pos hAT]
  have hm : merged = rm.foldl (fun m kv => setProp m kv.1 kv.2) cm := by
    unfold combineParameters at hmerge
    simp only [if_pos hslen, hcm, eq_self_iff_true, if_true, if_pos hulen, hrm,
      Option.pure_def, Option.bind_eq_bind, Option.some_bind,
      Option.some.injEq] at hmerge
    exact hmerge.symm
  refine ⟨?_, ?_, ?_⟩
  · intro k
    rw [hm]
    exact getProp_foldl_setProp rm cm k (queryStringToObject_nodupKeys _ _ hrm)
  · rw [hinj]
    exact getProp_addIfPropertyNotSet_self merged "token".toList su.accessToken
  · intro k hk
    rw [hinj]
    exact getProp_addIfPropertyNotSet_ne merged "token".toList su.accessToken k hk

/-- Witness for c5_amended_merge_and_injection: configured query a=b,
request query c=d, access token SECRET; the token is injected since the
merged map lacks a token key. -/
theorem c5_amended_witness :
    getProp (injectConfiguredToken [("a".toList, "b".toList), ("c".toList, "d".toList)]
      suWithAccessToken) "token".toList = some "SECRET".toList := by
  have h := (c5_amended_merge_and_injection "a=b".toList "c=d".toList
    suWithAccessToken [("a".toList, "b".toList)] [("c".toList, "d".toList)]
    [("a".toList, "b".toList), ("c".toList, "d".toList)]
    (by decide) (by decide) (by decide) (by decide) (by decide) (by decide)).2.1
  simpa using h

/-- The canonical plain form of a query string: key=value pairs joined by
ampersands, with no percent-escapes. -/
def joinQSPairs : PropObj → List Char
  | [] => []
  | [(k, v)] => k ++ '=' :: v
  | (k, v) :: rest => k ++ '=' :: v ++ '&' :: joinQSPairs rest

theorem takeWhile_all (p : Char → Bool) :
    ∀ l : List Char, (∀ c ∈ l, p c = true) → l.takeWhile p = l := by
  intro l h
  induction l with
  | nil => rfl
  | cons c rest ih =>
      rw [List.takeWhile_cons, if_pos (h c (by simp))]
      rw [ih (fun x hx => h x (by simp [hx]))]

theorem dropWhile_all (p : Char → Bool) :
    ∀ l : List Char, (∀ c ∈ l, p c = true) → l.dropWhile p = [] := by
  intro l h
  induction l with
  | nil => rfl
  | cons c rest ih =>
      rw [List.dropWhile_cons, if_pos (h c (by simp))]
      exact ih (fun x hx => h x (by simp [hx]))

theorem takeWhile_append_stop (p : Char → Bool) :
    ∀ (l1 : List Char) (x : Char) (l2 : List Char),
      (∀ c ∈ l1, p c = true) → p x = false →
      (l1 ++ x :: l2).takeWhile p = l1 := by
  intro l1 x l2 h1 h2
  induction l1 with
  | nil => simp [List.takeWhile_cons, h2]
  | cons c rest ih =>
      rw [List.cons_append, List.takeWhile_cons, if_pos (h1 c (by simp))]
      rw [ih (fun y hy => h1 y (by simp [hy]))]

theorem dropWhile_append_stop (p : Char → Bool) :
    ∀ (l1 : List Char) (x : Char) (l2 : List Char),
      (∀ c ∈ l1, p c = true) → p x = false →
      (l1 ++ x :: l2).dropWhile p = x :: l2 := by
  intro l1 x l2 h1 h2
  induction l1 with
  | nil => simp [List.dropWhile_cons, h2]
  | cons c rest ih =>
      rw [List.cons_append, List.dropWhile_cons, if_pos (h1 c (by simp))]
      exact ih (fun y hy => h1 y (by simp [hy]))

/-- Characters encodeURIComponent leaves alone are in particular not the
query-string metacharacters the scanner and decoder treat specially. -/
theorem isUnreservedURI_props (c : Char) (h : isUnreservedURI c = true) :
    qsKeyChar c = true ∧ c ≠ '&' ∧ c ≠ '%' ∧ c ≠ '+' ∧ c ≠ '?' ∧ c ≠ '=' := by
  have hamp : c ≠ '&' := fun hc => by subst hc; exact absurd h (by decide)
  have heq : c ≠ '=' := fun hc => by subst hc; exact absurd h (by decide)
  have hpct : c ≠ '%' := fun hc => by subst hc; exact absurd h (by decide)
  have hplus : c ≠ '+' := fun hc => by subst hc; exact absurd h (by decide)
  have hq : c ≠ '?' := fun hc => by subst hc; exact absurd h (by decide)
  exact ⟨by simp [qsKeyChar, hamp, heq], hamp, hpct, hplus, hq, heq⟩

theorem encodeChar_unreserved (c : Char) (h : isUnreservedURI c = true) :
    encodeChar c = [c] := by
  simp [encodeChar, h]

theorem encodeURIComponentM_id (s : List Char)
    (h : ∀ c ∈ s, isUnreservedURI c = true) : encodeURIComponentM s = s := by
  induction s with
  | nil => rfl
  | cons c rest ih =>
      rw [encodeURIComponentM, List.flatMap_cons,
        encodeChar_unreserved c (h c (by simp))]
      have := ih (fun x hx => h x (by simp [hx]))
      rw [encodeURIComponentM] at this
      simp [this]

theorem pctTokens_no_pct (s : List Char) (h : '%' ∉ s) :
    pctTokens s = some (s.map Sum.inr) := by
  induction s with
  | nil => rfl
  | cons c rest ih =>
      have hc : ¬ c = '%' := fun hc => h (by simp [hc])
      have hrest := ih (fun hm => h (by simp [hm]))
      rw [pctTokens.eq_def]
      simp only []
      rw [if_neg hc]
      simp [hrest]

theorem assembleTokens_inr (s : List Char) :
    assembleTokens [] (s.map Sum.inr) = some s := by
  induction s with
  | nil => rfl
  | cons c rest ih =>
      rw [List.map_cons, assembleTokens]
      simp only [ih, Option.bind_eq_bind, Option.some_bind, Option.pure_def]
      rfl

theorem jsQsDecode_id (s : List Char) (hp : '%' ∉ s) (hplus : '+' ∉ s) :
    jsQsDecode s = some s := by
  have hmap : s.map (fun c => if c = '+' then ' ' else c) = s := by
    have h1 : ∀ c ∈ s, (if c = '+' then ' ' else c) = id c := by
      intro c hc
      have hcp : ¬ c = '+' := fun hcc => hplus (hcc ▸ hc)
      rw [if_neg hcp]
      rfl
    rw [List.map_congr_left h1, List.map_id]
  rw [jsQsDecode, hmap, decodeURIComponentM, pctTokens_no_pct s hp]
  simpa using assembleTokens_inr s

theorem setProp_append_of_none (m : PropObj) (k v : List Char)
    (h : getProp m k = none) : setProp m k v = m ++ [(k, v)] := by
  induction m with
  | nil => rfl
  | cons kv rest ih =>
      by_cases hk : kv.1 = k
      · simp [getProp, hk] at h
      · simp only [getProp, hk] at h
        simp only [setProp]
        rw [if_neg hk, ih (by simpa [getProp, hk] using h)]
        rfl

theorem setProp_id_of_getProp (m : PropObj) (k v : List Char)
    (h : getProp m k = some v) : setProp m k v = m := by
  induction m with
  | nil => simp [getProp] at h
  | cons kv rest ih =>
      by_cases hk : kv.1 = k
      · simp only [getProp, if_pos hk, Option.some.injEq] at h
        cases kv with
        | mk k0 v0 =>
            simp only at hk h
            simp [setProp, hk, h]
      · simp only [getProp, if_neg hk] at h
        simp [setProp, hk, ih h]

theorem getProp_of_mem_nodup (ps : PropObj) (k v : List Char)
    (hnd : nodupKeys ps) (hmem : (k, v) ∈ ps) : getProp ps k = some v := by
  induction ps with
  | nil => simp at hmem
  | cons kv rest ih =>
      rcases List.mem_cons.mp hmem with heq | hrest
      · cases heq
        simp [getProp]
      · have hk0 : kv.1 ∉ rest.map Prod.fst := (List.nodup_cons.mp hnd).1
        have hne : ¬ kv.1 = k := by
          intro hh
          exact hk0 (hh ▸ (List.mem_map.mpr ⟨(k, v), hrest, rfl⟩))
        simp only [getProp, if_neg hne]
        exact ih (List.nodup_cons.mp hnd).2 hrest

theorem foldl_setProp_fresh : ∀ (ps : PropObj) (acc : PropObj),
    (∀ kv ∈ ps, getProp acc kv.1 = none) → nodupKeys ps →
    ps.foldl (fun m kv => setProp m kv.1 kv.2) acc = acc ++ ps := by
  intro ps
  induction ps with
  | nil => intro acc _ _; simp
  | cons kv rest ih =>
      intro acc hfresh hnd
      have hk0 : kv.1 ∉ rest.map Prod.fst := (List.nodup_cons.mp hnd).1
      rw [List.foldl_cons,
        setProp_append_of_none acc kv.1 kv.2 (hfresh kv (by simp))]
      have hstep : ∀ kv' ∈ rest, getProp (acc ++ [(kv.1, kv.2)]) kv'.1 = none := by
        intro kv' hkv'
        have hne : kv'.1 ≠ kv.1 := by
          intro hh
          exact hk0 (hh ▸ (List.mem_map.mpr ⟨kv', hkv', rfl⟩))
        rw [getProp_append_of_ne acc kv.1 kv.2 kv'.1 hne]
        exact hfresh kv' (by simp [hkv'])
      rw [ih (acc ++ [(kv.1, kv.2)]) hstep (List.nodup_cons.mp hnd).2]
      simp

theorem foldl_setProp_id (ps : PropObj) (m : PropObj)
    (h : ∀ kv ∈ ps, getProp m kv.1 = some kv.2) :
    ps.foldl (fun acc kv => setProp acc kv.1 kv.2) m = m := by
  induction ps with
  | nil => rfl
  | cons kv rest ih =>
      rw [List.foldl_cons, setProp_id_of_getProp m kv.1 kv.2 (h kv (by simp))]
      exact ih (fun kv' hkv' => h kv' (by simp [hkv']))

theorem foldlM_setProp_decoded (ps : List (List Char × List Char)) :
    ∀ acc : PropObj,
      (∀ kv ∈ ps, jsQsDecode kv.1 = some kv.1 ∧ jsQsDecode kv.2 = some kv.2) →
      ps.foldlM (fun m kv => do
        pure (setProp m (← jsQsDecode kv.1) (← jsQsDecode kv.2))) acc =
        some (ps.foldl (fun m kv => setProp m kv.1 kv.2) acc) := by
  induction ps with
  | nil => intro acc _; rfl
  | cons kv rest ih =>
      intro acc h
      obtain ⟨h1, h2⟩ := h kv (by simp)
      simp only [List.foldlM_cons, h1, h2, Option.pure_def, Option.bind_eq_bind,
        Option.some_bind]
      exact ih (setProp acc kv.1 kv.2) (fun kv' hkv' => h kv' (by simp [hkv']))

/-- One scanner step on a key=value pair followed either by nothing or by
an ampersand-led remainder: the key and value are cut exactly, and the
scanner continues on the remainder with one unit of fuel spent. -/
theorem qsScanF_step (fuel : Nat) (kc : Char) (kt v tail2 : List Char)
    (hkc : qsKeyChar kc = true) (hkt : ∀ c ∈ kt, qsKeyChar c = true)
    (hv : ∀ c ∈ v, c ≠ '&')
    (htail : tail2 = [] ∨ ∃ J, tail2 = '&' :: J) :
    qsScanF (fuel + 1) (kc :: (kt ++ '=' :: (v ++ tail2))) =
      (kc :: kt, v) :: qsScanF fuel tail2 := by
  have hsep : ¬(kc = '&' ∨ kc = '=') := by
    simp only [qsKeyChar, decide_eq_true_eq] at hkc
    push_neg
    exact hkc
  have hkall : ∀ c ∈ kc :: kt, qsKeyChar c = true := by
    intro c hc
    rcases List.mem_cons.mp hc with rfl | hc'
    · exact hkc
    · exact hkt c hc'
  have htake : (kc :: (kt ++ '=' :: (v ++ tail2))).takeWhile qsKeyChar = kc :: kt := by
    have := takeWhile_append_stop qsKeyChar (kc :: kt) '=' (v ++ tail2) hkall (by decide)
    simpa using this
  have hdrop : (kc :: (kt ++ '=' :: (v ++ tail2))).dropWhile qsKeyChar =
      '=' :: (v ++ tail2) := by
    have := dropWhile_append_stop qsKeyChar (kc :: kt) '=' (v ++ tail2) hkall (by decide)
    simpa using this
  have hvb : ∀ c ∈ v, (fun x : Char => decide (x ≠ '&')) c = true := by
    intro c hc
    exact decide_eq_true (hv c hc)
  have hvtake : (v ++ tail2).takeWhile (fun x : Char => x ≠ '&') = v := by
    rcases htail with rfl | ⟨J, rfl⟩
    · rw [List.append_nil]
      exact takeWhile_all (fun x : Char => decide (x ≠ '&')) v hvb
    · exact takeWhile_append_stop (fun x : Char => decide (x ≠ '&')) v '&' J hvb (by decide)
  have hvdrop : (v ++ tail2).dropWhile (fun x : Char => x ≠ '&') = tail2 := by
    rcases htail with rfl | ⟨J, rfl⟩
    · rw [List.append_nil]
      exact dropWhile_all (fun x : Char => decide (x ≠ '&')) v hvb
    · exact dropWhile_append_stop (fun x : Char => decide (x ≠ '&')) v '&' J hvb (by decide)
  rw [qsScanF.eq_def]
  simp only []
  rw [if_neg hsep]
  simp only [htake, hdrop, hvtake, hvdrop]

theorem qsScanF_skip_amp (fuel : Nat) (J : List Char) :
    qsScanF (fuel + 1) ('&' :: J) = qsScanF fuel J := by
  rw [qsScanF.eq_def]
  simp only []
  rw [if_pos (by simp)]

/-- The scanner recovers exactly the pairs from their canonical join,
provided keys are non-empty and contain no & or = and values contain no
&, and the fuel covers the input length. -/
theorem qsScanF_joinQSPairs : ∀ (pairs : PropObj) (fuel : Nat),
    (∀ kv ∈ pairs, kv.1 ≠ [] ∧ ∀ c ∈ kv.1, qsKeyChar c = true) →
    (∀ kv ∈ pairs, ∀ c ∈ kv.2, c ≠ '&') →
    (joinQSPairs pairs).length ≤ fuel →
    qsScanF fuel (joinQSPairs pairs) = pairs := by
  intro pairs
  induction pairs with
  | nil => intro fuel _ _ _; cases fuel <;> rfl
  | cons kv rest ih =>
      intro fuel hk hv hfuel
      obtain ⟨k, v⟩ := kv
      obtain ⟨hkne, hkchars⟩ := hk (k, v) (by simp)
      obtain ⟨kc, kt, rfl⟩ := List.exists_cons_of_ne_nil hkne
      have hkc : qsKeyChar kc = true := hkchars kc (by simp)
      have hkt : ∀ c ∈ kt, qsKeyChar c = true := fun c hc => hkchars c (by simp [hc])
      have hvch : ∀ c ∈ v, c ≠ '&' := hv (kc :: kt, v) (by simp)
      cases rest with
      | nil =>
          have hshape : joinQSPairs [(kc :: kt, v)] =
              kc :: (kt ++ '=' :: (v ++ [])) := by
            simp [joinQSPairs]
          rw [hshape] at hfuel ⊢
          cases fuel with
          | zero => simp at hfuel
          | succ f =>
              rw [qsScanF_step f kc kt v [] hkc hkt hvch (Or.inl rfl)]
              have : qsScanF f [] = [] := by cases f <;> rfl
              rw [this]
      | cons r rs =>
          have hshape : joinQSPairs ((kc :: kt, v) :: r :: rs) =
              kc :: (kt ++ '=' :: (v ++ '&' :: joinQSPairs (r :: rs))) := by
            simp [joinQSPairs]
          rw [hshape] at hfuel ⊢
          have hlen : (kc :: (kt ++ '=' :: (v ++ '&' :: joinQSPairs (r :: rs)))).length =
              kt.length + v.length + (joinQSPairs (r :: rs)).length + 3 := by
            simp [List.length_append]
            omega
          cases fuel with
          | zero => simp at hfuel
          | succ f =>
              rw [qsScanF_step f kc kt v ('&' :: joinQSPairs (r :: rs)) hkc hkt hvch
                (Or.inr ⟨joinQSPairs (r :: rs), rfl⟩)]
              cases f with
              | zero =>
                  rw [hlen] at hfuel
                  omega
              | succ f2 =>
                  rw [qsScanF_skip_amp f2 (joinQSPairs (r :: rs))]
                  rw [ih f2 (fun kv' hkv' => hk kv' (by simp [hkv']))
                    (fun kv' hkv' => hv kv' (by simp [hkv']))
                    (by rw [hlen] at hfuel; omega)]

theorem joinQSPairs_cons (k v : List Char) (rest : PropObj) :
    ∃ tail2, (tail2 = [] ∨ ∃ J, tail2 = '&' :: J) ∧
      joinQSPairs ((k, v) :: rest) = k ++ '=' :: (v ++ tail2) := by
  cases rest with
  | nil => exact ⟨[], Or.inl rfl, by simp [joinQSPairs]⟩
  | cons r rs =>
      exact ⟨'&' :: joinQSPairs (r :: rs), Or.inr ⟨joinQSPairs (r :: rs), rfl⟩,
        by simp [joinQSPairs]⟩

/-- Parsing the canonical join of duplicate-free pairs whose characters
are all left alone by encodeURIComponent recovers exactly those pairs. -/
theorem queryStringToObject_joinQSPairs (pairs : PropObj)
    (hk : ∀ kv ∈ pairs, kv.1 ≠ [] ∧ ∀ c ∈ kv.1, isUnreservedURI c = true)
    (hv : ∀ kv ∈ pairs, ∀ c ∈ kv.2, isUnreservedURI c = true)
    (hnd : nodupKeys pairs) :
    queryStringToObject (joinQSPairs pairs) = some pairs := by
  have hkq : ∀ kv ∈ pairs, kv.1 ≠ [] ∧ ∀ c ∈ kv.1, qsKeyChar c = true := by
    intro kv hkv
    exact ⟨(hk kv hkv).1, fun c hc => (isUnreservedURI_props c ((hk kv hkv).2 c hc)).1⟩
  have hvq : ∀ kv ∈ pairs, ∀ c ∈ kv.2, c ≠ '&' := by
    intro kv hkv c hc
    exact (isUnreservedURI_props c (hv kv hkv c hc)).2.1
  have hscan : qsScan (joinQSPairs pairs) = pairs :=
    qsScanF_joinQSPairs pairs (joinQSPairs pairs).length hkq hvq le_rfl
  have hdec : ∀ kv ∈ pairs, jsQsDecode kv.1 = some kv.1 ∧ jsQsDecode kv.2 = some kv.2 := by
    intro kv hkv
    constructor
    · exact jsQsDecode_id kv.1
        (fun hm => absurd ((hk kv hkv).2 '%' hm) (by decide))
        (fun hm => absurd ((hk kv hkv).2 '+' hm) (by decide))
    · exact jsQsDecode_id kv.2
        (fun hm => absurd (hv kv hkv '%' hm) (by decide))
        (fun hm => absurd (hv kv hkv '+' hm) (by decide))
  have hfold := foldlM_setProp_decoded pairs [] hdec
  have hfresh : pairs.foldl (fun m kv => setProp m kv.1 kv.2) [] = pairs := by
    have := foldl_setProp_fresh pairs [] (fun kv _ => rfl) hnd
    simpa using this
  cases hp : pairs with
  | nil => rfl
  | cons kv rest =>
      obtain ⟨k, v⟩ := kv
      obtain ⟨kc, kt, hkck⟩ := List.exists_cons_of_ne_nil (hkq (k, v) (by rw [hp]; simp)).1
      obtain ⟨tail2, _, hshape⟩ := joinQSPairs_cons k v rest
      have hqm : ¬ kc = '?' := by
        intro hq
        have := (hk (k, v) (by rw [hp]; simp)).2 kc (by rw [hkck]; simp)
        rw [hq] at this
        exact absurd this (by decide)
      have hshape2 : joinQSPairs ((k, v) :: rest) = kc :: (kt ++ '=' :: (v ++ tail2)) := by
        rw [hshape, show k = kc :: kt from hkck]
        simp
      rw [hp] at hscan hfold hfresh
      rw [queryStringToObject.eq_def, hshape2]
      simp only []
      rw [if_neg hqm, ← hshape2, hscan, hfold, hfresh]

theorem objectToQueryString_acc (ps : PropObj) : ∀ acc : List Char, acc ≠ [] →
    ps.foldl
      (fun acc kv =>
        acc ++ (if acc.length = 0 then [] else ['&']) ++
          encodeURIComponentM kv.1 ++ '=' :: encodeURIComponentM kv.2) acc =
    acc ++ ps.flatMap
      (fun kv => '&' :: (encodeURIComponentM kv.1 ++ '=' :: encodeURIComponentM kv.2)) := by
  induction ps with
  | nil => intro acc _; simp
  | cons kv rest ih =>
      intro acc hacc
      have hlen : ¬ acc.length = 0 := by
        intro h
        exact hacc (List.length_eq_zero.mp h)
      rw [List.foldl_cons, if_neg hlen]
      have hacc2 : acc ++ ['&'] ++ encodeURIComponentM kv.1 ++
          '=' :: encodeURIComponentM kv.2 ≠ [] := by
        simp
      rw [ih _ hacc2]
      simp [List.flatMap_cons]

theorem flatMap_pieces_eq : ∀ (rest : PropObj),
    (∀ kv ∈ rest, ∀ c ∈ kv.1, isUnreservedURI c = true) →
    (∀ kv ∈ rest, ∀ c ∈ kv.2, isUnreservedURI c = true) →
    rest.flatMap
      (fun kv => '&' :: (encodeURIComponentM kv.1 ++ '=' :: encodeURIComponentM kv.2)) =
      (if rest.isEmpty then [] else '&' :: joinQSPairs rest) := by
  intro rest
  induction rest with
  | nil => intro _ _; rfl
  | cons kv rs ih =>
      intro hk hv
      obtain ⟨k2, v2⟩ := kv
      have hek : encodeURIComponentM k2 = k2 :=
        encodeURIComponentM_id k2 (hk (k2, v2) (by simp))
      have hev : encodeURIComponentM v2 = v2 :=
        encodeURIComponentM_id v2 (hv (k2, v2) (by simp))
      rw [List.flatMap_cons, hek, hev,
        ih (fun kv' hkv' => hk kv' (by simp [hkv']))
          (fun kv' hkv' => hv kv' (by simp [hkv']))]
      cases rs with
      | nil => simp [joinQSPairs]
      | cons r2 rs2 => simp [joinQSPairs]

/-- Serializing duplicate-free pairs whose characters encodeURIComponent
leaves alone produces exactly their canonical join. -/
theorem objectToQueryString_eq_joinQSPairs (pairs : PropObj)
    (hk : ∀ kv ∈ pairs, ∀ c ∈ kv.1, isUnreservedURI c = true)
    (hv : ∀ kv ∈ pairs, ∀ c ∈ kv.2, isUnreservedURI c = true) :
    objectToQueryString pairs = joinQSPairs pairs := by
  cases pairs with
  | nil => rfl
  | cons kv rest =>
      obtain ⟨k, v⟩ := kv
      have hek : encodeURIComponentM k = k :=
        encodeURIComponentM_id k (hk (k, v) (by simp))
      have hev : encodeURIComponentM v = v :=
        encodeURIComponentM_id v (hv (k, v) (by simp))
      unfold objectToQueryString
      rw [List.foldl_cons]
      have hfirst : ([] : List Char) ++ (if ([] : List Char).length = 0 then [] else ['&']) ++
          encodeURIComponentM k ++ '=' :: encodeURIComponentM v = k ++ '=' :: v := by
        rw [hek, hev]
        simp
      rw [hfirst, objectToQueryString_acc rest (k ++ '=' :: v) (by simp),
        flatMap_pieces_eq rest (fun kv' hkv' => hk kv' (by simp [hkv']))
          (fun kv' hkv' => hv kv' (by simp [hkv']))]
      cases rest with
      | nil => simp [joinQSPairs]
      | cons r rs => simp [joinQSPairs]

/-- C9 counterexample: take Q = "a" (a query string with a key and no =).
Merging a Resource whose configured query is Q with a request whose query
is Q produces the single-key map a -> empty, which serializes to "a=",
not Q; no reordering of its single key can give back "a". -/
theorem c9_counterexample_roundtrip_fails :
    combineParameters "GET".toList "a".toList "a".toList =
      some [("a".toList, [])] ∧
    objectToQueryString [("a".toList, [])] = "a=".toList ∧
    "a=".toList ≠ "a".toList := by
  refine ⟨by decide, by decide, by decide⟩

/-- C9 amended: for every query string Q in canonical form - Q is the
ampersand join of key=value pairs with pairwise distinct, non-empty,
non-integer-like keys, where every key and value character is one that
encodeURIComponent leaves unchanged (so no %, +, &, = or ? characters) -
merging a Resource whose configured query is Q with a GET request whose
query is also Q and serializing the merged map yields exactly Q, in the
original key order. For other strings Q the round-trip can differ (see
the counterexample). -/
theorem c9_amended_roundtrip (pairs : PropObj)
    (hk : ∀ kv ∈ pairs, kv.1 ≠ [] ∧ (∀ c ∈ kv.1, isUnreservedURI c = true) ∧
      (∃ c ∈ kv.1, c.isDigit = false))
    (hv : ∀ kv ∈ pairs, ∀ c ∈ kv.2, isUnreservedURI c = true)
    (hnd : nodupKeys pairs) :
    combineParameters "GET".toList (joinQSPairs pairs) (joinQSPairs pairs) =
      some pairs ∧
    objectToQueryString pairs = joinQSPairs pairs := by
  have hk' : ∀ kv ∈ pairs, kv.1 ≠ [] ∧ ∀ c ∈ kv.1, isUnreservedURI c = true :=
    fun kv hkv => ⟨(hk kv hkv).1, (hk kv hkv).2.1⟩
  refine ⟨?_, objectToQueryString_eq_joinQSPairs pairs
    (fun kv hkv => (hk kv hkv).2.1) hv⟩
  have hq : queryStringToObject (joinQSPairs pairs) = some pairs :=
    queryStringToObject_joinQSPairs pairs hk' hv hnd
  cases hp : pairs with
  | nil => rfl
  | cons kv rest =>
      obtain ⟨k, v⟩ := kv
      rw [hp] at hq hnd
      obtain ⟨tail2, _, hshape⟩ := joinQSPairs_cons k v rest
      have hlen : (joinQSPairs ((k, v) :: rest)).length > 0 := by
        rw [hshape]
        simp only [List.length_append, List.length_cons]
        omega
      unfold combineParameters
      simp only [if_pos hlen, hq, eq_self_iff_true, if_true,
        Option.pure_def, Option.bind_eq_bind, Option.some_bind, Option.some.injEq]
      apply foldl_setProp_id
      intro kv' hkv'
      exact getProp_of_mem_nodup ((k, v) :: rest) kv'.1 kv'.2 hnd (by simpa using hkv')

/-- Witness for c9_amended_roundtrip on the single pair a=b. -/
theorem c9_amended_roundtrip_witness :
    combineParameters "GET".toList (joinQSPairs [("a".toList, "b".toList)])
        (joinQSPairs [("a".toList, "b".toList)]) =
      some [("a".toList, "b".toList)] ∧
    objectToQueryString [("a".toList, "b".toList)] =
      joinQSPairs [("a".toList, "b".toList)] :=
  c9_amended_roundtrip [("a".toList, "b".toList)]
    (by decide) (by decide) (by simp [nodupKeys])

theorem searchFrom_eq_some (P : Nat → Bool) :
    ∀ (fuel i k : Nat), i ≤ k → k < i + fuel →
      (∀ j, i ≤ j → j < k → P j = false) → P k = true →
      searchFrom P i fuel = some k := by
  intro fuel
  induction fuel with
  | zero => intro i k hik hk _ _; omega
  | succ f ih =>
      intro i k hik hk hmin hPk
      by_cases hi : P i = true
      · have : i = k := by
          by_contra hne
          have hilt : i < k := lt_of_le_of_ne hik hne
          rw [hmin i le_rfl hilt] at hi
          exact absurd hi (by simp)
        rw [searchFrom, if_pos hi, this]
      · have hne : i ≠ k := fun hh => hi (hh ▸ hPk)
        rw [searchFrom, if_neg hi]
        exact ih (i + 1) k (by omega) (by omega)
          (fun j hj1 hj2 => hmin j (by omega) hj2) hPk

theorem searchFrom_eq_none (P : Nat → Bool) (h : ∀ j, P j = false) :
    ∀ (fuel i : Nat), searchFrom P i fuel = none := by
  intro fuel
  induction fuel with
  | zero => intro i; rfl
  | succ f ih =>
      intro i
      rw [searchFrom, if_neg (by simp [h i])]
      exact ih (i + 1)

theorem jsIndexOf_append (c : Char) :
    ∀ (l1 l2 : List Char), c ∉ l1 →
      jsIndexOf c (l1 ++ c :: l2) = some l1.length := by
  intro l1 l2 h
  induction l1 with
  | nil => simp [jsIndexOf]
  | cons x rest ih =>
      have hx : ¬ x = c := fun hh => h (by simp [hh])
      rw [List.cons_append, jsIndexOf, if_neg hx,
        ih (fun hm => h (by simp [hm]))]
      rfl

theorem drop_length_cons (w : List Char) (c : Char) (t : List Char) :
    (w ++ c :: t).drop (w.length + 1) = t := by
  induction w with
  | nil => simp
  | cons x rest ih => simp [ih]

theorem infix_of_prefix_drop (pat s : List Char) (j m : Nat)
    (h : pat <+: s.drop j) (hm : j + pat.length ≤ m) :
    pat <:+: s.take m := by
  obtain ⟨t, ht⟩ := h
  have h1 : s.take m = s.take j ++ (s.drop j).take (m - j) := by
    conv_lhs => rw [show m = j + (m - j) by omega]
    rw [List.take_add]
  have h2 : (s.drop j).take (m - j) = pat ++ t.take (m - j - pat.length) := by
    rw [← ht]
    conv_lhs => rw [show m - j = pat.length + (m - j - pat.length) by omega]
    rw [List.take_append]
  exact ⟨s.take j, t.take (m - j - pat.length),
    by rw [h1, h2, List.append_assoc]⟩

theorem infix_of_prefix_drop_all (pat s : List Char) (j : Nat)
    (h : pat <+: s.drop j) : pat <:+: s := by
  obtain ⟨t, ht⟩ := h
  refine ⟨s.take j, t, ?_⟩
  conv_rhs => rw [← List.take_append_drop j s]
  rw [← ht, List.append_assoc]

theorem mem_dropWhile_of_pred_false (p : Char → Bool) :
    ∀ (l : List Char) (c : Char), c ∈ l → p c = false → c ∈ l.dropWhile p := by
  intro l c hc hp
  induction l with
  | nil => simp at hc
  | cons x rest ih =>
      by_cases hx : p x = true
      · rw [List.dropWhile_cons, if_pos hx]
        rcases List.mem_cons.mp hc with rfl | hrest
        · rw [hp] at hx; exact absurd hx (by simp)
        · exact ih hrest
      · rw [List.dropWhile_cons, if_neg hx]
        exact hc

theorem jsTrim_ne_nil (s : List Char) (c : Char) (hc : c ∈ s)
    (hw : jsIsWs c = false) : jsTrim s ≠ [] := by
  unfold jsTrim
  have h1 : c ∈ s.dropWhile jsIsWs := mem_dropWhile_of_pred_false jsIsWs s c hc hw
  have h2 : c ∈ (s.dropWhile jsIsWs).reverse := List.mem_reverse.mpr h1
  have h3 : c ∈ (s.dropWhile jsIsWs).reverse.dropWhile jsIsWs :=
    mem_dropWhile_of_pred_false jsIsWs _ c h2 hw
  have h4 : c ∈ ((s.dropWhile jsIsWs).reverse.dropWhile jsIsWs).reverse :=
    List.mem_reverse.mpr h3
  exact List.ne_nil_of_mem h4

theorem isPrefixOf_append_self (l1 l2 : List Char) :
    l1.isPrefixOf (l1 ++ l2) = true := by
  rw [List.isPrefixOf_iff_prefix]
  exact List.prefix_append l1 l2

/-- Query-string extraction: when the bytes before the &token= separator
contain no earlier occurrence of token=, the value is cut between the =
and the next &. -/
theorem findToken_query_form (p s X : List Char)
    (hinf : ¬ "token=".toList <:+: (p ++ "&token".toList))
    (hXne : X ≠ []) (hXamp : '&' ∉ X) :
    findTokenInString (p ++ ("&token=".toList ++ (X ++ '&' :: s)))
      "token".toList = X := by
  have hteq : "token".toList ++ ['='] = "token=".toList := rfl
  have hguard1 : jsTrim (p ++ ("&token=".toList ++ (X ++ '&' :: s))) ≠ [] :=
    jsTrim_ne_nil _ '&'
      (List.mem_append.mpr (Or.inr (List.mem_append.mpr (Or.inl (by decide))))) rfl
  have hguard2 : jsTrim "token".toList ≠ [] := by decide
  have hdrop : (p ++ ("&token=".toList ++ (X ++ '&' :: s))).drop p.length =
      "&token=".toList ++ (X ++ '&' :: s) := List.drop_left p _
  have hamp : "&token=".toList ++ (X ++ '&' :: s) =
      '&' :: ("token=".toList ++ (X ++ '&' :: s)) := rfl
  have hP : qsTokenMatchAt (p ++ ("&token=".toList ++ (X ++ '&' :: s)))
      "token=".toList p.length = true := by
    unfold qsTokenMatchAt
    rw [hdrop, hamp]
    simp [isPrefixOf_append_self]
  have htake6 : (p ++ ("&token=".toList ++ (X ++ '&' :: s))).take (p.length + 6) =
      p ++ "&token".toList := by
    rw [List.take_append]
    congr 1
  have hPmin : ∀ j, j < p.length →
      qsTokenMatchAt (p ++ ("&token=".toList ++ (X ++ '&' :: s)))
        "token=".toList j = false := by
    intro j hj
    rw [Bool.eq_false_iff]
    intro htrue
    unfold qsTokenMatchAt at htrue
    simp only [Bool.or_eq_true, Bool.and_eq_true, decide_eq_true_eq] at htrue
    have hlen6 : ("token=".toList).length = 6 := rfl
    rcases htrue with hpre | ⟨_, hpre⟩
    · have hfix := infix_of_prefix_drop "token=".toList _ j (p.length + 6)
        (List.isPrefixOf_iff_prefix.mp hpre) (by omega)
      rw [htake6] at hfix
      exact hinf hfix
    · rw [List.tail_drop] at hpre
      have hfix := infix_of_prefix_drop "token=".toList _ (j + 1) (p.length + 6)
        (List.isPrefixOf_iff_prefix.mp hpre) (by omega)
      rw [htake6] at hfix
      exact hinf hfix
  have hlensrc : p.length < (p ++ ("&token=".toList ++ (X ++ '&' :: s))).length := by
    simp [List.length_append]
  have hsearch : searchQsToken (p ++ ("&token=".toList ++ (X ++ '&' :: s)))
      "token=".toList = some p.length :=
    searchFrom_eq_some _ _ 0 p.length (Nat.zero_le _) (by omega)
      (fun j _ hj => hPmin j hj) hP
  have hsplit : "&token=".toList ++ (X ++ '&' :: s) =
      "&token".toList ++ '=' :: (X ++ '&' :: s) := rfl
  have hidxeq : jsIndexOf '=' ("&token=".toList ++ (X ++ '&' :: s)) = some 6 := by
    rw [hsplit, jsIndexOf_append '=' "&token".toList (X ++ '&' :: s) (by decide)]
    rfl
  have hdrop7 : ("&token=".toList ++ (X ++ '&' :: s)).drop 7 = X ++ '&' :: s := by
    rw [show (7 : Nat) = ("&token=".toList).length from rfl, List.drop_left]
  have hidxamp : jsIndexOf '&' (X ++ '&' :: s) = some X.length :=
    jsIndexOf_append '&' X s hXamp
  have hXpos : X.length > 0 := List.length_pos.mpr hXne
  rw [findTokenInString.eq_def, if_pos ⟨hguard1, hguard2⟩]
  simp only [hteq, hsearch]
  rw [hdrop, hidxeq]
  simp only []
  rw [show (6 : Nat) + 1 = 7 from rfl, hdrop7, hidxamp]
  simp only [if_pos hXpos]
  exact List.take_left X ('&' :: s)

/-- JSON extraction: when token= occurs nowhere in the body and the bytes
before the "token": key contain no earlier occurrence of it, the next
quoted string after the colon is returned. -/
theorem findToken_json_form (p s X w : List Char)
    (hq : ¬ "token=".toList <:+:
      (p ++ ("\"token\":".toList ++ (w ++ '"' :: (X ++ '"' :: s)))))
    (hjp : ¬ "\"token\":".toList <:+: (p ++ "\"token\"".toList))
    (hw : '"' ∉ w) (hX : '"' ∉ X) :
    findTokenInString (p ++ ("\"token\":".toList ++ (w ++ '"' :: (X ++ '"' :: s))))
      "token".toList = X := by
  have hteq : "token".toList ++ ['='] = "token=".toList := rfl
  have hpat : ('"' :: "token".toList ++ ['"', ':']) = "\"token\":".toList := rfl
  have hguard1 :
      jsTrim (p ++ ("\"token\":".toList ++ (w ++ '"' :: (X ++ '"' :: s)))) ≠ [] :=
    jsTrim_ne_nil _ '"'
      (List.mem_append.mpr (Or.inr (List.mem_append.mpr (Or.inl (by decide))))) rfl
  have hguard2 : jsTrim "token".toList ≠ [] := by decide
  have hnone : searchQsToken
      (p ++ ("\"token\":".toList ++ (w ++ '"' :: (X ++ '"' :: s))))
      "token=".toList = none := by
    apply searchFrom_eq_none
    intro j
    rw [Bool.eq_false_iff]
    intro htrue
    unfold qsTokenMatchAt at htrue
    simp only [Bool.or_eq_true, Bool.and_eq_true, decide_eq_true_eq] at htrue
    rcases htrue with hpre | ⟨_, hpre⟩
    · exact hq (infix_of_prefix_drop_all "token=".toList _ j
        (List.isPrefixOf_iff_prefix.mp hpre))
    · rw [List.tail_drop] at hpre
      exact hq (infix_of_prefix_drop_all "token=".toList _ (j + 1)
        (List.isPrefixOf_iff_prefix.mp hpre))
  have hdropp : (p ++ ("\"token\":".toList ++ (w ++ '"' :: (X ++ '"' :: s)))).drop
      p.length = "\"token\":".toList ++ (w ++ '"' :: (X ++ '"' :: s)) :=
    List.drop_left p _
  have hPj : ("\"token\":".toList).isPrefixOf
      ((p ++ ("\"token\":".toList ++ (w ++ '"' :: (X ++ '"' :: s)))).drop p.length) =
      true := by
    rw [hdropp]
    exact isPrefixOf_append_self _ _
  have htake7 : (p ++ ("\"token\":".toList ++ (w ++ '"' :: (X ++ '"' :: s)))).take
      (p.length + 7) = p ++ "\"token\"".toList := by
    rw [List.take_append]
    congr 1
  have hPjmin : ∀ j, j < p.length →
      ("\"token\":".toList).isPrefixOf
        ((p ++ ("\"token\":".toList ++ (w ++ '"' :: (X ++ '"' :: s)))).drop j) =
        false := by
    intro j hj
    rw [Bool.eq_false_iff]
    intro htrue
    have hlen8 : ("\"token\":".toList).length = 8 := rfl
    have hfix := infix_of_prefix_drop "\"token\":".toList _ j (p.length + 7)
      (List.isPrefixOf_iff_prefix.mp htrue) (by omega)
    rw [htake7] at hfix
    exact hjp hfix
  have hlensrc : p.length <
      (p ++ ("\"token\":".toList ++ (w ++ '"' :: (X ++ '"' :: s)))).length := by
    simp [List.length_append]
  have hjsearch : firstSubstrIdx
      (p ++ ("\"token\":".toList ++ (w ++ '"' :: (X ++ '"' :: s))))
      "\"token\":".toList = some p.length :=
    searchFrom_eq_some _ _ 0 p.length (Nat.zero_le _) (by omega)
      (fun j _ hj => hPjmin j hj) hPj
  have hdrop8 : (p ++ ("\"token\":".toList ++ (w ++ '"' :: (X ++ '"' :: s)))).drop
      (p.length + 8) = w ++ '"' :: (X ++ '"' :: s) := by
    rw [List.drop_append]
    rfl
  have hidx1 : jsIndexOf '"' (w ++ '"' :: (X ++ '"' :: s)) = some w.length :=
    jsIndexOf_append '"' w (X ++ '"' :: s) hw
  have hdropw : (w ++ '"' :: (X ++ '"' :: s)).drop (w.length + 1) =
      X ++ '"' :: s := drop_length_cons w '"' (X ++ '"' :: s)
  have hidx2 : jsIndexOf '"' (X ++ '"' :: s) = some X.length :=
    jsIndexOf_append '"' X s hX
  rw [findTokenInString.eq_def, if_pos ⟨hguard1, hguard2⟩]
  simp only [hteq, hnone, hpat, hjsearch]
  rw [show ("\"token\":".toList).length = 8 from rfl, hdrop8, hidx1]
  simp only []
  rw [hdropw, hidx2]
  exact List.take_left X ('"' :: s)

/-- C3 counterexample: the source atoken=Y&token=X&b contains the
query-string payload &token=X& , yet extraction returns Y, because the
regex (\?|&|\/|)token= has an empty final alternative - the separator is
optional - and the search takes the FIRST occurrence of token= in the
string, which here lies inside atoken=Y. -/
theorem c3_counterexample_first_occurrence :
    "atoken=Y&token=X&b".toList =
      "atoken=Y".toList ++ ("&token=X&".toList ++ "b".toList) ∧
    findTokenInString "atoken=Y&token=X&b".toList "token".toList = "Y".toList ∧
    "Y".toList ≠ "X".toList := by
  refine ⟨by decide, by decide, by decide⟩

/-- C3 amended: extraction returns the value after the FIRST occurrence
of token= in the source (the separator ? & / is optional, because the
regex's last alternative is empty), terminated by the next &; only when
token= occurs nowhere does it fall back to the first "token": occurrence
and return the next quoted string. Hence for a payload &token=X& whose
preceding bytes contain no occurrence of token=, extraction yields X (X
non-empty, no &); and for a payload "token": "X" in a body with no
token= anywhere and no earlier "token":, extraction yields X (no quote
in X or in the whitespace run). -/
theorem c3_amended_extraction :
    (∀ p s X : List Char,
      ¬ "token=".toList <:+: (p ++ "&token".toList) → X ≠ [] → '&' ∉ X →
      findTokenInString (p ++ ("&token=".toList ++ (X ++ '&' :: s)))
        "token".toList = X) ∧
    (∀ p s X w : List Char,
      ¬ "token=".toList <:+:
        (p ++ ("\"token\":".toList ++ (w ++ '"' :: (X ++ '"' :: s)))) →
      ¬ "\"token\":".toList <:+: (p ++ "\"token\"".toList) →
      '"' ∉ w → '"' ∉ X →
      findTokenInString (p ++ ("\"token\":".toList ++ (w ++ '"' :: (X ++ '"' :: s))))
        "token".toList = X) :=
  ⟨findToken_query_form, findToken_json_form⟩

/-- Witness for c3_amended_extraction: both extraction forms at concrete
payloads. -/
theorem c3_amended_extraction_witness :
    findTokenInString
      ("f=json".toList ++ ("&token=".toList ++ ("XYZ".toList ++ '&' :: "r=1".toList)))
      "token".toList = "XYZ".toList ∧
    findTokenInString
      ("\x7b".toList ++ ("\"token\":".toList ++ ([' '] ++ '"' :: ("ABC".toList ++ '"' :: "\x7d".toList))))
      "token".toList = "ABC".toList :=
  ⟨c3_amended_extraction.1 "f=json".toList "r=1".toList "XYZ".toList
      (by decide) (by decide) (by decide),
    c3_amended_extraction.2 "\x7b".toList "\x7d".toList "ABC".toList [' ']
      (by decide) (by decide) (by decide) (by decide)⟩
